import Mathlib

/-!
The package gqpp: structural queries over a parsed HTML tree.

A shallow embedding of `src/gqpp.go`.  The functions of `gqpp.go` are embedded
one by one, under their own names.  What `gqpp.go` imports is embedded as
follows:

* `golang.org/x/net/html`: the node tree (`Node`, `NodeType`, `Attribute`);
* `goquery`: `Selection` and the operations `gqpp.go` calls on it (`Parent`,
  `Children`, `Find`, `Each`, `EachWithBreak`, `Eq`, `Length`, `Attr`, `Html`,
  `IsSelection`, `NodeName`, `OuterHtml`);
* the serializer `html.Render`, the selector engine (cascadia) and
  `purse.Flatten` are the three fields of `Lib`, and the parser is a parameter
  of the functions that parse: the general theorems hold for every `Lib` and
  parser, the worked examples use the reference instance `std`, or `casc`, the
  same with the type selectors of cascadia.

Go's unbounded recursion (`ClimbTreeUntil`) takes a fuel argument; a call that
panics or that does not come back within the fuel is an `Outcome` of its own.
-/

namespace Gqpp

/-! ## golang.org/x/net/html: nodes -/

/-- The node types of `html.Node`. -/
inductive NodeType where
  | ErrorNode
  | TextNode
  | DocumentNode
  | ElementNode
  | CommentNode
  | DoctypeNode
  | RawNode
  deriving DecidableEq, Repr

/-- An attribute of a node: `html.Attribute` (the namespace is left out). -/
structure Attribute where
  Key : String
  Val : String
  deriving DecidableEq, Repr

/-- A node with its subtree: `html.Node`, the children in sibling order. -/
inductive Node where
  | mk (type : NodeType) (data : String) (attr : List Attribute) (children : List Node)

/-- Field `Type` of `html.Node`. -/
def Node.type : Node → NodeType
  | .mk t _ _ _ => t

/-- Field `Data` of `html.Node`: the tag name of an element, the text of a text node. -/
def Node.data : Node → String
  | .mk _ d _ _ => d

/-- Field `Attr` of `html.Node`. -/
def Node.attr : Node → List Attribute
  | .mk _ _ a _ => a

/-- The children of a node, `FirstChild` followed along `NextSibling`. -/
def Node.children : Node → List Node
  | .mk _ _ _ cs => cs

/-- A node of a document as a `*html.Node` gives it: the node, the chain of
its `Parent` pointers, nearest first, each with the index the node below has
among its children, and the document the node is part of (every parse makes a
document of its own, and every document has its own number). -/
structure Handle where
  node : Node
  up : List (Nat × Node)
  doc : Nat

/-- The position of a node in its document: the child indices on the way up. -/
def Handle.pos (h : Handle) : List Nat :=
  h.up.map Prod.fst

/-- Pointer equality of two nodes: they are at the same position of the same
document.  Nodes of two documents are never the same, whatever their positions. -/
def Handle.same (a b : Handle) : Bool :=
  a.doc == b.doc && a.pos == b.pos

/-- The `Parent` pointer: `none` stands for nil. -/
def Handle.parent (h : Handle) : Option Handle :=
  match h.up with
  | [] => none
  | (_, p) :: rest => some ⟨p, rest, h.doc⟩

/-- The children of a node, as handles. -/
def Handle.childHandles (h : Handle) : List Handle :=
  h.node.children.enum.map (fun ic => ⟨ic.2, (ic.1, h.node) :: h.up, h.doc⟩)

/-- The root node of the document number `id`. -/
def Handle.root (id : Nat) (doc : Node) : Handle :=
  ⟨doc, [], id⟩

/-! ## Results of a run -/

/-- A Go `error` value made by `fmt.Errorf`, or handed back by a library call:
the format and its arguments (an argument cut out of a string is kept as its
bytes). -/
structure GoError where
  format : String
  args : List (List UInt8)
  deriving DecidableEq

/-- How a call ends: it returns, it panics, or it is still running when the
fuel is used up. -/
inductive Outcome (α : Type) where
  | ret (a : α)
  | panicked (msg : String)
  | outOfFuel
  deriving DecidableEq

/-- Sequencing of calls: a panic or an unfinished call ends the caller too. -/
def Outcome.bind {α β : Type} (x : Outcome α) (f : α → Outcome β) : Outcome β :=
  match x with
  | .ret a => f a
  | .panicked m => .panicked m
  | .outOfFuel => .outOfFuel

/-- The bytes of a Go string. -/
def goBytes (s : String) : List UInt8 :=
  s.data.flatMap String.utf8EncodeChar

/-- The slice expression `s[lo:hi]` on a string: a run-time panic unless
`lo <= hi <= len(s)`. -/
def sliceStr (s : String) (lo hi : Nat) : Outcome (List UInt8) :=
  if lo ≤ hi ∧ hi ≤ s.utf8ByteSize then
    .ret (((goBytes s).drop lo).take (hi - lo))
  else
    .panicked "slice bounds out of range"

/-! ## The external collaborators -/

/-- What `gqpp.go` calls outside itself and goquery's tree walking:
`html.Render` (the serializer behind `goquery.OuterHtml`), the compiled
selector of `Find` (whether a node matches a selector string; a string that does
not compile matches no node), and `purse.Flatten`. -/
structure Lib where
  Render : Node → Except GoError String
  Match : String → Handle → Bool
  Flatten : String → String

/-! ## goquery: selections -/

/-- A `goquery.Selection`: its `Nodes`. -/
structure Selection where
  Nodes : List Handle

/-- The method `Selection.Length` of goquery. -/
def Selection.Length (s : Selection) : Nat :=
  s.Nodes.length

/-- The function `newSingleSelection` of goquery. -/
def newSingleSelection (n : Handle) : Selection :=
  ⟨[n]⟩

/-- The selection a `goquery.Document` embeds: the document's root node. -/
def newDocumentSelection (id : Nat) (doc : Node) : Selection :=
  ⟨[Handle.root id doc]⟩

/-- goquery `appendWithoutDuplicates`: the nodes not yet in the target are
appended to it, in order. -/
def appendWithoutDuplicates (target nodes : List Handle) : List Handle :=
  nodes.foldl (fun acc n => if acc.any (fun m => m.same n) then acc else acc ++ [n]) target

/-- goquery `mapNodes`: the results of `f` on every node, without duplicates. -/
def mapNodes (nodes : List Handle) (f : Nat → Handle → List Handle) : List Handle :=
  nodes.enum.foldl
    (fun result inode =>
      let vals := f inode.1 inode.2
      if vals.length > 0 then appendWithoutDuplicates result vals else result)
    []

/-- goquery `getParentNodes`: the parent of each node, when it is an element. -/
def getParentNodes (nodes : List Handle) : List Handle :=
  mapNodes nodes (fun _ n =>
    match n.parent with
    | some p => if p.node.type = NodeType.ElementNode then [p] else []
    | none => [])

/-- The method `Selection.Parent` of goquery. -/
def Selection.Parent (s : Selection) : Selection :=
  ⟨getParentNodes s.Nodes⟩

/-- goquery `getChildrenNodes` with `siblingAll`: the element children of each node. -/
def getChildrenNodes (nodes : List Handle) : List Handle :=
  mapNodes nodes (fun _ n =>
    n.childHandles.filter (fun c => c.node.type = NodeType.ElementNode))

/-- The method `Selection.Children` of goquery. -/
def Selection.Children (s : Selection) : Selection :=
  ⟨getChildrenNodes s.Nodes⟩

mutual
/-- cascadia `MatchAll`: the node itself when it matches, then the matches
among its descendants, in document order. -/
def matchAll (m : Handle → Bool) (doc : Nat) : Node → List (Nat × Node) → List Handle
  | .mk t d a cs, up =>
    (if m ⟨.mk t d a cs, up, doc⟩ then [⟨.mk t d a cs, up, doc⟩] else [])
      ++ matchAllFrom m doc (.mk t d a cs) up 0 cs
/-- The matches in the children `cs` of `parent`, the first of them being child
number `i`. -/
def matchAllFrom (m : Handle → Bool) (doc : Nat) (parent : Node) (up : List (Nat × Node)) :
    Nat → List Node → List Handle
  | _, [] => []
  | i, c :: cs =>
    matchAll m doc c ((i, parent) :: up) ++ matchAllFrom m doc parent up (i + 1) cs
end

/-- goquery `findWithMatcher`: the matches below each node of `nodes`. -/
def findWithMatcher (nodes : List Handle) (m : Handle → Bool) : List Handle :=
  mapNodes nodes (fun _ n =>
    (n.childHandles.filter (fun c => c.node.type = NodeType.ElementNode)).flatMap
      (fun c => matchAll m c.doc c.node c.up))

/-- The method `Selection.Find` of goquery. -/
def Selection.Find (L : Lib) (s : Selection) (selector : String) : Selection :=
  ⟨findWithMatcher s.Nodes (L.Match selector)⟩

/-- The method `Selection.Eq` of goquery: the node at `index`, counted from the end when `index` is
negative; the empty selection when there is none. -/
def Selection.Eq (s : Selection) (index : Int) : Selection :=
  let index := if index < 0 then index + s.Nodes.length else index
  if index ≥ s.Nodes.length ∨ index < 0 then ⟨[]⟩
  else ⟨(s.Nodes.drop index.toNat).take 1⟩

/-- goquery `nodeName`: the tag of an element, `#text` and the like otherwise. -/
def nodeName (n : Node) : String :=
  match n.type with
  | .ElementNode => n.data
  | .DoctypeNode => n.data
  | .ErrorNode => "#error"
  | .TextNode => "#text"
  | .DocumentNode => "#document"
  | .CommentNode => "#comment"
  | .RawNode => ""

/-- The function `goquery.NodeName`: the name of the first node, empty for the empty selection. -/
def NodeName (s : Selection) : String :=
  match s.Nodes with
  | [] => ""
  | n :: _ => nodeName n.node

/-- The function `goquery.OuterHtml`: the first node rendered, the empty string (and no
error) for the empty selection. -/
def OuterHtml (L : Lib) (s : Selection) : Except GoError String :=
  match s.Nodes with
  | [] => .ok ""
  | n :: _ => L.Render n.node

/-- The loop of `Selection.Each`, the callback acting on the variables `σ` it
captures; `i` is the index of the first node of `nodes`. -/
def eachFrom {σ : Type} (f : Nat → Selection → σ → Outcome σ) : Nat → List Handle → σ → Outcome σ
  | _, [], st => .ret st
  | i, n :: rest, st => (f i (newSingleSelection n) st).bind (fun st1 => eachFrom f (i + 1) rest st1)

/-- The method `Selection.Each` of goquery. -/
def Selection.Each {σ : Type} (s : Selection) (f : Nat → Selection → σ → Outcome σ) (st : σ) :
    Outcome σ :=
  eachFrom f 0 s.Nodes st

/-- The loop of `Selection.EachWithBreak`: it stops at the first node on which
the callback returns false. -/
def eachWithBreakFrom {σ : Type} (f : Nat → Selection → σ → Bool × σ) : Nat → List Handle → σ → σ
  | _, [], st => st
  | i, n :: rest, st =>
    match f i (newSingleSelection n) st with
    | (true, st1) => eachWithBreakFrom f (i + 1) rest st1
    | (false, st1) => st1

/-- The method `Selection.EachWithBreak` of goquery. -/
def Selection.EachWithBreak {σ : Type} (s : Selection) (f : Nat → Selection → σ → Bool × σ)
    (st : σ) : σ :=
  eachWithBreakFrom f 0 s.Nodes st

/-! ## gqpp.go -/

/-- The function `NewHtmlFromSelection` (lines 70-76). -/
def NewHtmlFromSelection (L : Lib) (s : Selection) : Except GoError String :=
  match OuterHtml L s with
  | .error err => .error err
  | .ok htmlStr => .ok (L.Flatten htmlStr)

/-- The function `ClimbTreeUntil` (lines 78-84).  The condition acts on the variables `σ` it
captures.  The only `return` with a value returns nil; there is no bound on the
recursion, which the fuel stands for. -/
def ClimbTreeUntil {σ : Type} (cond : Selection → σ → Outcome (Bool × σ)) :
    Nat → Selection → σ → Outcome (Option GoError × σ)
  | 0, _, _ => .outOfFuel
  | fuel + 1, s, st =>
    let parent := s.Parent
    match cond parent st with
    | .ret (true, st1) => .ret (none, st1)
    | .ret (false, st1) => ClimbTreeUntil cond fuel parent st1
    | .panicked m => .panicked m
    | .outOfFuel => .outOfFuel

/-- The variables of `CalculateNodeDepth` its closures write to. -/
structure DepthVars where
  depth : Int
  potErr : Option GoError

/-- The condition `CalculateNodeDepth` climbs with (lines 114-128). -/
def depthCond (L : Lib) (childHtml rootHtml : String) (parent : Selection) (v : DepthVars) :
    Outcome (Bool × DepthVars) :=
  (if parent.Length = 0 then
      (sliceStr childHtml 0 30).bind (fun c =>
        (sliceStr rootHtml 0 30).bind (fun r =>
          .ret { v with potErr := some ⟨"child node: %s not found within parent node: %s", [c, r]⟩ }))
    else .ret v).bind (fun v1 =>
  match NewHtmlFromSelection L parent with
  | .error err => .ret (true, { v1 with potErr := some err })
  | .ok parentHtml =>
    if parentHtml = rootHtml then .ret (true, v1)
    else .ret (false, { v1 with depth := v1.depth + 1 }))

/-- The callback of `Each` in `CalculateNodeDepth` (lines 107-130); the value
`ClimbTreeUntil` returns is dropped. -/
def depthEach (L : Lib) (fuel : Nat) (childHtml rootHtml : String) (_i : Nat) (search : Selection)
    (v : DepthVars) : Outcome DepthVars :=
  match NewHtmlFromSelection L search with
  | .error err => .ret { v with potErr := some err }
  | .ok searchHtml =>
    if searchHtml = childHtml then
      (ClimbTreeUntil (depthCond L childHtml rootHtml) fuel search v).bind (fun r => .ret r.2)
    else .ret v

/-- The function `CalculateNodeDepth` (lines 95-135). -/
def CalculateNodeDepth (L : Lib) (fuel : Nat) (root child : Selection) :
    Outcome (Int × Option GoError) :=
  let childNodeName := NodeName child
  match NewHtmlFromSelection L child with
  | .error err => .ret (-1, some err)
  | .ok childHtml =>
    match NewHtmlFromSelection L root with
    | .error err => .ret (-1, some err)
    | .ok rootHtml =>
      ((root.Find L childNodeName).Each (depthEach L fuel childHtml rootHtml) ⟨0, none⟩).bind
        (fun v =>
          match v.potErr with
          | some err => .ret (-1, some err)
          | none => .ret (v.depth, none))

/-- The variables of `CountMatchingParentTags` its closure writes to. -/
structure CountVars where
  count : Int
  found : Bool
  potentialErr : Option GoError

/-- The height of the highest node of a selection above its document's root,
plus one; zero for the empty selection.  It bounds the walks towards the root. -/
def Selection.height (s : Selection) : Nat :=
  s.Nodes.foldr (fun h m => max (h.up.length + 1) m) 0

/-! ### The walk towards the root comes to an end

`Selection.Parent` lowers the height of a selection that is not empty: the
measure of the loop of `CountMatchingParentTags`. -/

theorem mem_appendWithoutDuplicates {x : Handle} {nodes target : List Handle}
    (hx : x ∈ appendWithoutDuplicates target nodes) : x ∈ target ∨ x ∈ nodes := by
  unfold appendWithoutDuplicates at hx
  induction nodes generalizing target with
  | nil => exact Or.inl hx
  | cons n rest ih =>
    rw [List.foldl_cons] at hx
    rcases ih hx with h | h
    · split at h
      · exact Or.inl h
      · rcases List.mem_append.mp h with h1 | h1
        · exact Or.inl h1
        · exact Or.inr (by simp_all)
    · exact Or.inr (List.mem_cons_of_mem _ h)

theorem mem_mapNodes_fold {x : Handle} {f : Nat → Handle → List Handle}
    {l : List (Nat × Handle)} {acc : List Handle}
    (hx : x ∈ l.foldl
      (fun result inode =>
        let vals := f inode.1 inode.2
        if vals.length > 0 then appendWithoutDuplicates result vals else result) acc) :
    x ∈ acc ∨ ∃ p ∈ l, x ∈ f p.1 p.2 := by
  induction l generalizing acc with
  | nil => exact Or.inl hx
  | cons p rest ih =>
    rw [List.foldl_cons] at hx
    rcases ih hx with h | ⟨q, hq, hxq⟩
    · dsimp only at h
      split at h
      · rcases mem_appendWithoutDuplicates h with h1 | h1
        · exact Or.inl h1
        · exact Or.inr ⟨p, List.mem_cons_self _ _, h1⟩
      · exact Or.inl h
    · exact Or.inr ⟨q, List.mem_cons_of_mem _ hq, hxq⟩

theorem mem_mapNodes {x : Handle} {f : Nat → Handle → List Handle} {nodes : List Handle}
    (hx : x ∈ mapNodes nodes f) : ∃ i, ∃ n ∈ nodes, x ∈ f i n := by
  rcases mem_mapNodes_fold hx with h | ⟨p, hp, hxp⟩
  · exact absurd h (List.not_mem_nil _)
  · obtain ⟨i, n⟩ := p
    exact ⟨i, n, (List.mem_enum hp).2 ▸ List.getElem_mem _, hxp⟩

theorem mem_getParentNodes {x : Handle} {nodes : List Handle} (hx : x ∈ getParentNodes nodes) :
    ∃ n ∈ nodes, n.parent = some x ∧ x.node.type = NodeType.ElementNode := by
  obtain ⟨_, n, hn, h⟩ := mem_mapNodes hx
  refine ⟨n, hn, ?_⟩
  cases hp : n.parent with
  | none => simp [hp] at h
  | some p =>
    simp only [hp] at h
    split at h
    · rename_i ht
      have hxp : x = p := by simpa using h
      subst hxp
      exact ⟨rfl, ht⟩
    · simp at h

theorem Handle.parent_up {n x : Handle} (h : n.parent = some x) :
    x.up.length + 1 = n.up.length := by
  unfold Handle.parent at h
  split at h
  · simp at h
  · rename_i heq
    have hx : x = _ := (Option.some.inj h).symm
    subst hx
    simp [heq]

theorem Selection.le_height {s : Selection} {n : Handle} (hn : n ∈ s.Nodes) :
    n.up.length + 1 ≤ s.height := by
  obtain ⟨nodes⟩ := s
  unfold Selection.height
  dsimp only at hn ⊢
  induction nodes with
  | nil => exact absurd hn (List.not_mem_nil _)
  | cons a rest ih =>
    rw [List.foldr_cons]
    rcases List.mem_cons.mp hn with h | h
    · subst h
      exact le_max_left _ _
    · exact le_trans (ih h) (le_max_right _ _)

theorem Selection.height_lt {s : Selection} {b : Nat} (hb : 0 < b)
    (h : ∀ n ∈ s.Nodes, n.up.length + 1 < b) : s.height < b := by
  obtain ⟨nodes⟩ := s
  unfold Selection.height
  dsimp only at h ⊢
  induction nodes with
  | nil => simpa using hb
  | cons a rest ih =>
    rw [List.foldr_cons]
    exact max_lt (h a (List.mem_cons_self _ _))
      (ih (fun n hn => h n (List.mem_cons_of_mem _ hn)))

theorem Selection.Parent_height {s : Selection} (hs : s.Length > 0) :
    s.Parent.height < s.height := by
  have hpos : 0 < s.height := by
    cases hN : s.Nodes with
    | nil => simp [Selection.Length, hN] at hs
    | cons a rest =>
      have := @Selection.le_height s a (by simp [hN])
      omega
  refine Selection.height_lt hpos (fun x hx => ?_)
  obtain ⟨n, hn, hp, _⟩ := mem_getParentNodes hx
  have h1 := Handle.parent_up hp
  have h2 := Selection.le_height hn
  omega

/-- The loop of `CountMatchingParentTags` over the ancestors (lines 158-164):
`current` and `count` are its variables. -/
def countParents (tagNames : List String) (current : Selection) (count : Int) : Int :=
  if h : current.Length > 0 then
    let nodeName := NodeName current
    countParents tagNames current.Parent (if nodeName ∈ tagNames then count + 1 else count)
  else count
termination_by current.height
decreasing_by exact Selection.Parent_height h

/-- The callback of `EachWithBreak` in `CountMatchingParentTags` (lines 149-168). -/
def countEach (L : Lib) (tagNames : List String) (childHtml : String) (_i : Nat)
    (search : Selection) (v : CountVars) : Bool × CountVars :=
  match NewHtmlFromSelection L search with
  | .error err => (false, { v with potentialErr := some err })
  | .ok searchHtml =>
    if searchHtml = childHtml then
      (false, { v with found := true, count := countParents tagNames search.Parent v.count })
    else (true, v)

/-- The function `CountMatchingParentTags` (lines 137-176); the set of tag names is kept as
the list it is filled from. -/
def CountMatchingParentTags (L : Lib) (root child : Selection) (tagNames : List String) :
    Int × Option GoError :=
  match NewHtmlFromSelection L child with
  | .error err => (-1, some err)
  | .ok childHtml =>
    let v := (root.Find L (NodeName child)).EachWithBreak (countEach L tagNames childHtml)
      ⟨0, false, none⟩
    match v.potentialErr with
    | some err => (-1, some err)
    | none =>
      if !v.found then (-1, some ⟨"child node not found within the root", []⟩)
      else (v.count, none)

/-- The variables of the loops of `FindDeepestMatchingSelection`. -/
structure DeepestVars where
  deepestSelection : Option Selection
  maxDepth : Int

/-- The loop over the nodes of one query result (lines 209-223), `i` running
over the indices given; `none` is the early `return nil, false`. -/
def deepestInner (L : Lib) (fuel : Nat) (selection found : Selection) :
    List Nat → DeepestVars → Outcome (Option DeepestVars)
  | [], v => .ret (some v)
  | i :: rest, v =>
    let node := found.Eq i
    (CalculateNodeDepth L fuel selection node).bind (fun r =>
      match r.2 with
      | some _ => .ret none
      | none =>
        deepestInner L fuel selection found rest
          (if r.1 > v.maxDepth then ⟨some node, r.1⟩ else v))

/-- The loop over the selectors (lines 206-225). -/
def deepestOuter (L : Lib) (fuel : Nat) (selection : Selection) :
    List String → DeepestVars → Outcome (Option DeepestVars)
  | [], v => .ret (some v)
  | selector :: rest, v =>
    let found := selection.Find L selector
    (if found.Length > 0 then
        deepestInner L fuel selection found (List.range found.Length) v
      else .ret (some v)).bind (fun r =>
      match r with
      | none => .ret none
      | some v1 => deepestOuter L fuel selection rest v1)

/-- The function `FindDeepestMatchingSelection` (lines 202-231): `none` is `(nil, false)`,
`some s` is `(s, true)`. -/
def FindDeepestMatchingSelection (L : Lib) (fuel : Nat) (selection : Selection)
    (selectors : List String) : Outcome (Option Selection) :=
  (deepestOuter L fuel selection selectors ⟨none, -1⟩).bind (fun r =>
    match r with
    | none => .ret none
    | some v =>
      match v.deepestSelection with
      | none => .ret none
      | some s => .ret (some s))

/-! ### More of goquery and of the Go library

The operations the functions of `gqpp.go` below call. -/

/-- The method `Selection.Attr` of goquery: the value of the first attribute of
the first node that has the name, `none` when there is no such attribute (the
second result, `exists`, is false) or no node. -/
def Selection.Attr (s : Selection) (attrName : String) : Option String :=
  match s.Nodes with
  | [] => none
  | n :: _ => (n.node.attr.find? (fun a => a.Key = attrName)).map (fun a => a.Val)

/-- The method `Selection.IsSelection` of goquery: whether at least one node of
`s` is a node of `sel` (a nil `sel` is the empty selection). -/
def Selection.IsSelection (s sel : Selection) : Bool :=
  (s.Nodes.filter (fun n => sel.Nodes.any (fun m => m.same n))).length > 0

/-- Go `strings.Split(s, " ")` on the characters of `s`: the pieces between the
spaces, `cur` being the piece that is read, backwards.  There is always at
least one piece. -/
def splitFrom : List Char → List Char → List String
  | [], cur => [String.mk cur.reverse]
  | c :: cs, cur =>
    if c = ' ' then String.mk cur.reverse :: splitFrom cs [] else splitFrom cs (c :: cur)

/-- Go `strings.Split(s, " ")`. -/
def Split (s : String) : List String :=
  splitFrom s.data []

/-- An index expression `parts[i]` on a slice of strings: a run-time panic
unless `0 <= i < len(parts)`. -/
def indexStr (parts : List String) (i : Int) : Outcome String :=
  if i < 0 then .panicked "index out of range"
  else
    match parts.get? i.toNat with
    | some p => .ret p
    | none => .panicked "index out of range"

/-! ### The other functions of gqpp.go -/

/-- The callback of `Each` in `GetAttrStr` (lines 60-66): `attrs` is the slice
it appends to. -/
def attrStrEach (filter : List String) (_i : Nat) (sel : Selection) (attrs : List String) :
    Outcome (List String) :=
  match sel.Nodes with
  | [] => .panicked "index out of range"
  | n :: _ =>
    .ret (n.node.attr.foldl
      (fun acc attr =>
        if attr.Key ∈ filter then acc else acc ++ [attr.Key ++ "=\"" ++ attr.Val ++ "\""])
      attrs)

/-- The function `GetAttrStr` (lines 54-68); the filter map is kept as the list
it is filled from. -/
def GetAttrStr (selection : Selection) (filter : List String) : Outcome String :=
  (selection.Each (attrStrEach filter) []).bind (fun attrs => .ret (" ".intercalate attrs))

/-- The function `GetFirstMatchingAttr` (lines 242-249). -/
def GetFirstMatchingAttr (selection : Selection) : List String → String
  | [] => ""
  | attr :: rest =>
    match selection.Attr attr with
    | some _ => attr
    | none => GetFirstMatchingAttr selection rest

/-- The function `GetAttrPart` (lines 251-261). -/
def GetAttrPart (selection : Selection) (attrName : String) (part : Int) :
    Outcome (String × Option GoError) :=
  match selection.Attr attrName with
  | none => .ret ("", some ⟨"attr: '%s' does not exist when it should", [goBytes attrName]⟩)
  | some attr =>
    let parts := Split attr
    if (parts.length : Int) < part then
      .ret ("", some ⟨"attr: '%s' must contain %d parts",
        [goBytes attrName, goBytes (toString part)]⟩)
    else (indexStr parts part).bind (fun p => .ret (p, none))

/-- The loop of `HasParentWithAttrs` over the ancestors (lines 289-303). -/
def hasParentLoop (stopAt : Selection) (attrs : List String) (current : Selection) : Bool :=
  if h : current.Length > 0 then
    if current.IsSelection stopAt then false
    else if current.Nodes.any (fun node => node.node.attr.any (fun attr => attr.Key ∈ attrs)) then
      true
    else
      have : current.Parent.height < current.height := Selection.Parent_height h
      hasParentLoop stopAt attrs current.Parent
  else false
termination_by current.height

/-- The function `HasParentWithAttrs` (lines 280-306); the set of names is kept
as the list it is filled from. -/
def HasParentWithAttrs (sel stopAt : Selection) (attrs : List String) : Bool :=
  hasParentLoop stopAt attrs sel.Parent

/-- The function `ForceElementAttr` (lines 308-318). -/
def ForceElementAttr (L : Lib) (sel : Selection) (attrToCheck : String) :
    String × Option GoError :=
  match NewHtmlFromSelection L sel with
  | .error err => ("", some err)
  | .ok htmlStr =>
    match sel.Attr attrToCheck with
    | none =>
      ("", some ⟨"element is required to have the '%s' attribute: %s",
        [goBytes attrToCheck, goBytes htmlStr]⟩)
    | some attr => (attr, none)

/-- The function `ForceElementAttrParts` (lines 320-334). -/
def ForceElementAttrParts (L : Lib) (sel : Selection) (attrToCheck : String)
    (partsExpected : Int) : List String × Option GoError :=
  match NewHtmlFromSelection L sel with
  | .error err => ([], some err)
  | .ok htmlStr =>
    match ForceElementAttr L sel attrToCheck with
    | (_, some _) => ([], none)
    | (attr, none) =>
      let parts := Split attr
      if (parts.length : Int) ≠ partsExpected then
        ([], some ⟨"attribute '%s' expects %d distinct parts in element: %s",
          [goBytes attrToCheck, goBytes (toString partsExpected), goBytes htmlStr]⟩)
      else (parts, none)

/-! ## The words of the claims -/

/-- The ancestors a chain of `Parent` pointers leads through, nearest first. -/
def ancestorsFrom (doc : Nat) : List (Nat × Node) → List Handle
  | [] => []
  | (_, p) :: rest => ⟨p, rest, doc⟩ :: ancestorsFrom doc rest

/-- The ancestors of a node, nearest first, up to the root of its document. -/
def Handle.ancestors (h : Handle) : List Handle :=
  ancestorsFrom h.doc h.up

/-- The ancestors of a node that are selections of goquery: the element
ancestors, nearest first, up to the first ancestor that is not an element (in a
parsed document: all of them but the document node, which has no tag). -/
def Handle.elementAncestors (h : Handle) : List Handle :=
  h.ancestors.takeWhile (fun a => a.node.type = NodeType.ElementNode)

/-- The number of element ancestors of a node whose tag name is among `tagNames`. -/
def countTaggedAncestors (tagNames : List String) (h : Handle) : Nat :=
  h.elementAncestors.countP (fun a => nodeName a.node ∈ tagNames)

/-- The candidates of `FindDeepestMatchingSelection`: for each selector, in the
order given, the nodes of its query result, in the order of the result, each as
a selection of its own. -/
def candidates (L : Lib) (selection : Selection) (selectors : List String) : List Selection :=
  selectors.flatMap (fun selector => (selection.Find L selector).Nodes.map newSingleSelection)

/-- The two loops of `FindDeepestMatchingSelection` as one loop over a list of
candidates. -/
def deepestScan (L : Lib) (fuel : Nat) (selection : Selection) :
    List Selection → DeepestVars → Outcome (Option DeepestVars)
  | [], v => .ret (some v)
  | node :: rest, v =>
    (CalculateNodeDepth L fuel selection node).bind (fun r =>
      match r.2 with
      | some _ => .ret none
      | none =>
        deepestScan L fuel selection rest (if r.1 > v.maxDepth then ⟨some node, r.1⟩ else v))

/-- What the loops of `FindDeepestMatchingSelection` have found after the
candidates `seen`: nothing yet and the initial maximum -1, or the first of the
candidates seen whose depth is the greatest among them. -/
def DeepestSoFar (L : Lib) (fuel : Nat) (selection : Selection) (seen : List Selection)
    (v : DeepestVars) : Prop :=
  (seen = [] ∧ v = ⟨none, -1⟩) ∨
    ∃ pre n post d, seen = pre ++ n :: post ∧ v = ⟨some n, d⟩
      ∧ CalculateNodeDepth L fuel selection n = .ret (d, none)
      ∧ (∀ c ∈ seen, ∀ dc, CalculateNodeDepth L fuel selection c = .ret (dc, none) → dc ≤ d)
      ∧ (∀ c ∈ pre, ∀ dc, CalculateNodeDepth L fuel selection c = .ret (dc, none) → dc < d)

/-- The pieces `name="value"` of the attributes of the nodes of a selection
whose name is not in `filter`: node after node, and within a node in the order
of its attributes, the value as it stands. -/
def attrPieces (selection : Selection) (filter : List String) : List String :=
  selection.Nodes.flatMap (fun n =>
    (n.node.attr.filter (fun a => a.Key ∉ filter)).map
      (fun a => a.Key ++ "=\"" ++ a.Val ++ "\""))

/-- The first node of the selection has an attribute of the name `name`. -/
def hasAttrName (selection : Selection) (name : String) : Prop :=
  ∃ h rest, selection.Nodes = h :: rest ∧ ∃ a ∈ h.node.attr, a.Key = name

/-- The node carries an attribute whose name is in `attrs`. -/
def carriesAttr (attrs : List String) (a : Handle) : Bool :=
  a.node.attr.any (fun attr => attr.Key ∈ attrs)

/-- The ancestors of a node strictly below `stopAt` on its chain of ancestors:
the element ancestors, nearest first, up to the first that is a node of
`stopAt`, this one left out; all of them when no ancestor is a node of `stopAt`. -/
def ancestorsBelow (stopAt : Selection) (h : Handle) : List Handle :=
  h.elementAncestors.takeWhile (fun a => !(stopAt.Nodes.any (fun m => m.same a)))

/-- The nodes a chain of `Parent` pointers leads through before it goes on
with `base`: for a node whose chain is `ext ++ base`, its first ancestors, as
many as `ext` is long. -/
def betweenHandles (doc : Nat) : List (Nat × Node) → List (Nat × Node) → List Handle
  | [], _ => []
  | (_, p) :: ext, base => ⟨p, ext ++ base, doc⟩ :: betweenHandles doc ext base

/-! ## The reference library and the example documents -/

/-- The characters `html.Render` escapes in text and attribute values:
ampersand, apostrophe, the angle brackets, the double quote and carriage return. -/
def escapeChar (c : Char) : String :=
  if c.toNat = 38 then "&amp;"
  else if c.toNat = 39 then "&#39;"
  else if c.toNat = 60 then "&lt;"
  else if c.toNat = 62 then "&gt;"
  else if c.toNat = 34 then "&#34;"
  else if c.toNat = 13 then "&#13;"
  else String.singleton c

/-- The function `escape` of `html.Render`. -/
def escape (s : String) : String :=
  String.join (s.data.map escapeChar)

/-- The elements `html.Render` writes as `<tag/>`. -/
def voidElements : List String :=
  ["area", "base", "br", "col", "embed", "hr", "img", "input", "keygen", "link", "meta",
    "param", "source", "track", "wbr"]

/-- The attributes of an opening tag, each after a space. -/
def renderAttrs : List Attribute → String
  | [] => ""
  | a :: rest => " " ++ a.Key ++ "=\"" ++ escape a.Val ++ "\"" ++ renderAttrs rest

mutual
/-- The serializer `html.Render` on the node kinds of the example documents:
text is escaped, an element is its opening tag, its children and its closing
tag, a void element is `<tag/>` and may have no child, an `ErrorNode` cannot be
rendered.  Left out, as no example has them: attribute namespaces, the
identifiers of a doctype, the raw text of `script` and its like, the newline
kept after `<pre>`. -/
def render : Node → Except GoError String
  | .mk .ErrorNode _ _ _ => .error ⟨"html: cannot render an ErrorNode node", []⟩
  | .mk .TextNode d _ _ => .ok (escape d)
  | .mk .DocumentNode _ _ cs => renderAll cs
  | .mk .CommentNode d _ _ => .ok ("<!--" ++ d ++ "-->")
  | .mk .DoctypeNode d _ _ => .ok ("<!DOCTYPE " ++ escape d ++ ">")
  | .mk .RawNode d _ _ => .ok d
  | .mk .ElementNode d a cs =>
    if d ∈ voidElements then
      if cs.isEmpty then .ok ("<" ++ d ++ renderAttrs a ++ "/>")
      else .error ⟨"html: void element <%s> has child nodes", [goBytes d]⟩
    else
      match renderAll cs with
      | .error err => .error err
      | .ok inner => .ok ("<" ++ d ++ renderAttrs a ++ ">" ++ inner ++ "</" ++ d ++ ">")
/-- The children rendered one after the other. -/
def renderAll : List Node → Except GoError String
  | [] => .ok ""
  | c :: cs =>
    match render c with
    | .error err => .error err
    | .ok first =>
      match renderAll cs with
      | .error err => .error err
      | .ok others => .ok (first ++ others)
end

/-- The words of a text: its maximal runs of characters that are not white
space; `cur` is the word being read, backwards. -/
def fieldsFrom : List Char → List Char → List String
  | [], cur => if cur.isEmpty then [] else [String.mk cur.reverse]
  | c :: cs, cur =>
    if c.isWhitespace then
      if cur.isEmpty then fieldsFrom cs [] else String.mk cur.reverse :: fieldsFrom cs []
    else fieldsFrom cs (c :: cur)

/-- Modelled from the spec: `purse.Flatten`, of a package outside `src/`.  The
spec (section 6) has the serialized markup "flattened: whitespace-normalized":
every run of white space becomes one space, none is kept at either end.  The
markup of the example documents has no white space at all. -/
def Flatten (s : String) : String :=
  " ".intercalate (fieldsFrom s.data [])

/-- A selector that is a plain tag name, as all selectors of the examples are:
it matches the elements of that name. -/
def matchTag (selector : String) (h : Handle) : Bool :=
  h.node.type = NodeType.ElementNode && h.node.data == selector

/-- The reference library: `html.Render`, tag-name selectors, `Flatten`. -/
def std : Lib :=
  ⟨render, matchTag, Flatten⟩

/-- An element node. -/
def el (tag : String) (attr : List Attribute) (children : List Node) : Node :=
  .mk .ElementNode tag attr children

/-- A text node. -/
def txt (s : String) : Node :=
  .mk .TextNode s [] []

/-- The document `html.Parse` builds around body markup: the document node, and
`html` with `head` and `body`. -/
def parsedDoc (body : List Node) : Node :=
  .mk .DocumentNode "" [] [el "html" [] [el "head" [] [], el "body" [] body]]

/-- The selection `NewSelectionFromStr` returns for a parsed document (lines
31-32): `doc.Find("body").Children()`; `id` is the number of the document. -/
def bodyChildren (L : Lib) (id : Nat) (doc : Node) : Selection :=
  ((newDocumentSelection id doc).Find L "body").Children

/-- The document of `<div><p><span>x</span></p></div>`. -/
def doc1 : Node :=
  parsedDoc [el "div" [] [el "p" [] [el "span" [] [txt "x"]]]]

/-- The `div` of `doc1`. -/
def div1 : Selection :=
  bodyChildren std 1 doc1

/-- The `span` of `doc1`. -/
def span1 : Selection :=
  div1.Find std "span"

/-- The document of `<div><p><span>x</span></p><p><span>x</span></p></div>`. -/
def doc2 : Node :=
  parsedDoc [el "div" [] [el "p" [] [el "span" [] [txt "x"]], el "p" [] [el "span" [] [txt "x"]]]]

/-- The `div` of `doc2`. -/
def div2 : Selection :=
  bodyChildren std 2 doc2

/-- The first `span` of `doc2`. -/
def span2 : Selection :=
  (div2.Find std "span").Eq 0

/-- The document of `<div><b>1</b></div><div><i>2</i></div>`. -/
def doc3 : Node :=
  parsedDoc [el "div" [] [el "b" [] [txt "1"]], el "div" [] [el "i" [] [txt "2"]]]

/-- The two `div`s of `doc3`: the selection `NewSelectionFromStr` returns. -/
def divs3 : Selection :=
  bodyChildren std 3 doc3

/-- The `i` of `doc3`. -/
def i3 : Selection :=
  divs3.Find std "i"

/-- The document of `doc3` with texts of thirty characters. -/
def doc4 : Node :=
  parsedDoc [el "div" [] [el "b" [] [txt "111111111111111111111111111111"]],
    el "div" [] [el "i" [] [txt "222222222222222222222222222222"]]]

/-- The two `div`s of `doc4`. -/
def divs4 : Selection :=
  bodyChildren std 4 doc4

/-- The `i` of `doc4`. -/
def i4 : Selection :=
  divs4.Find std "i"

/-- The document of `<div><b>1</b><i><b>2</b></i></div>`. -/
def doc5 : Node :=
  parsedDoc [el "div" [] [el "b" [] [txt "1"], el "i" [] [el "b" [] [txt "2"]]]]

/-- The `div` of `doc5`. -/
def div5 : Selection :=
  bodyChildren std 5 doc5

/-- The inner `b` of `doc5`, the one inside `i`. -/
def innerB5 : Selection :=
  (div5.Find std "i").Find std "b"

/-- The outer `b` of `doc5`. -/
def outerB5 : Selection :=
  (div5.Find std "b").Eq 0

/-- The `i` of `doc5`. -/
def i5 : Selection :=
  div5.Find std "i"

/-- The node of the `span` of `doc1`. -/
def spanNode1 : Handle :=
  span1.Nodes.headD (Handle.root 1 doc1)

/-- The document of `<div><span>y</span><section><p><span>x</span></p></section></div>`. -/
def doc6 : Node :=
  parsedDoc [el "div" []
    [el "span" [] [txt "y"], el "section" [] [el "p" [] [el "span" [] [txt "x"]]]]]

/-- The `div` of `doc6`. -/
def div6 : Selection :=
  bodyChildren std 6 doc6

/-- The `section` of `doc6`. -/
def section6 : Selection :=
  div6.Find std "section"

/-- The `span` inside the `p` of `doc6`. -/
def spanX6 : Selection :=
  (div6.Find std "p").Find std "span"

/-- The first `span` of `doc6`, the one outside the `section`. -/
def spanY6 : Selection :=
  (div6.Find std "span").Eq 0

/-- The node of the first `span` of `doc6`. -/
def spanNodeY6 : Handle :=
  (div6.Find std "span").Nodes.headD (Handle.root 6 doc6)

/-- The node of the `span` inside the `p` of `doc6`. -/
def spanNodeX6 : Handle :=
  spanX6.Nodes.headD (Handle.root 6 doc6)

/-- The document of `<div id="a">hi</div>`. -/
def doc7 : Node :=
  parsedDoc [el "div" [⟨"id", "a"⟩] [txt "hi"]]

/-- The `div` of `doc7`. -/
def div7 : Selection :=
  bodyChildren std 7 doc7

/-- The document of `<div id="a" class="x y" title="a&amp;b">hi</div>`: the
parser gives the third attribute the value `a&b`. -/
def doc8 : Node :=
  parsedDoc [el "div" [⟨"id", "a"⟩, ⟨"class", "x y"⟩, ⟨"title", "a&b"⟩] [txt "hi"]]

/-- The `div` of `doc8`. -/
def div8 : Selection :=
  bodyChildren std 8 doc8

/-- The document of `<div><section id="s"><p><b>1</b></p></section><i>2</i></div>`. -/
def doc10 : Node :=
  parsedDoc [el "div" []
    [el "section" [⟨"id", "s"⟩] [el "p" [] [el "b" [] [txt "1"]]], el "i" [] [txt "2"]]]

/-- The `div` of `doc10`. -/
def div10 : Selection :=
  bodyChildren std 10 doc10

/-- The `section` of `doc10`. -/
def section10 : Selection :=
  div10.Find std "section"

/-- The `b` of `doc10`. -/
def b10 : Selection :=
  div10.Find std "b"

/-- The node of the `b` of `doc10`. -/
def bNode10 : Handle :=
  b10.Nodes.headD (Handle.root 10 doc10)

/-- The `b` and the `i` of `doc10` in one selection:
`div.Find("b").AddSelection(div.Find("i"))`. -/
def bi10 : Selection :=
  ⟨appendWithoutDuplicates (div10.Find std "b").Nodes (div10.Find std "i").Nodes⟩

/-- The node of the `div` of `doc1`. -/
def divNode1 : Handle :=
  div1.Nodes.headD (Handle.root 1 doc1)

/-- The document of `<!DOCTYPE html><html><head></head><body><p>x</p></body></html>`. -/
def doc11 : Node :=
  .mk .DocumentNode "" []
    [.mk .DoctypeNode "html" [] [],
      el "html" [] [el "head" [] [], el "body" [] [el "p" [] [txt "x"]]]]

/-- The selection of the document node of `doc11`: the `Selection` of the
`goquery.Document`. -/
def root11 : Selection :=
  newDocumentSelection 11 doc11

/-- The `p` of `doc11`. -/
def p11 : Selection :=
  root11.Find std "p"

/-- The document of `doc11` with a text of thirty characters. -/
def doc12 : Node :=
  .mk .DocumentNode "" []
    [.mk .DoctypeNode "html" [] [],
      el "html" [] [el "head" [] [],
        el "body" [] [el "p" [] [txt "111111111111111111111111111111"]]]]

/-- The selection of the document node of `doc12`. -/
def root12 : Selection :=
  newDocumentSelection 12 doc12

/-- The `p` of `doc12`. -/
def p12 : Selection :=
  root12.Find std "p"

/-- The node of the `p` of `doc1`. -/
def pNode1 : Handle :=
  (div1.Find std "p").Nodes.headD (Handle.root 1 doc1)

/-- The node of the `div` of `doc6`. -/
def divNode6 : Handle :=
  div6.Nodes.headD (Handle.root 6 doc6)

/-- The node of the `section` of `doc6`. -/
def sectionNode6 : Handle :=
  section6.Nodes.headD (Handle.root 6 doc6)

/-- The node of the `p` of `doc6`. -/
def pNode6 : Handle :=
  (div6.Find std "p").Nodes.headD (Handle.root 6 doc6)

/-! ### Document order, type selectors, and more example documents -/

mutual
/-- The nodes of a subtree in document order: the node, then the subtrees of
its children, one child after the other. -/
def subtree (doc : Nat) : Node → List (Nat × Node) → List Handle
  | .mk t d a cs, up => ⟨.mk t d a cs, up, doc⟩ :: subtreeFrom doc (.mk t d a cs) up 0 cs
/-- The subtrees of the children `cs` of `parent`, the first of them being child
number `i`. -/
def subtreeFrom (doc : Nat) (parent : Node) (up : List (Nat × Node)) :
    Nat → List Node → List Handle
  | _, [] => []
  | i, c :: cs => subtree doc c ((i, parent) :: up) ++ subtreeFrom doc parent up (i + 1) cs
end

/-- The descendants of a node, in document order. -/
def Handle.descendants (h : Handle) : List Handle :=
  h.childHandles.flatMap (fun c => subtree c.doc c.node c.up)

/-- The descendants of a node that have the tag name `name`, in document order. -/
def Handle.descendantsNamed (h : Handle) (name : String) : List Handle :=
  h.descendants.filter (fun x => nodeName x.node == name)

/-- A string cascadia reads as one type selector: a letter followed by letters,
digits, hyphens and underscores.  (`o:p` is not one: a colon starts a
pseudo-class, and there is no pseudo-class `p`, so the string does not compile.) -/
def isTypeSelector (selector : String) : Bool :=
  match selector.data with
  | [] => false
  | c :: cs => c.isAlpha && cs.all (fun x => x.isAlphanum || x == '-' || x == '_')

/-- The type selector of cascadia: the selector string is put in lower case
when it is compiled, and matches the elements whose tag, as it stands, is equal
to that.  Strings that are not one type selector are not covered: no node is
given for them, which is what goquery does for a string that does not compile. -/
def matchType (selector : String) (h : Handle) : Bool :=
  isTypeSelector selector && h.node.type = NodeType.ElementNode
    && h.node.data == String.mk (selector.data.map Char.toLower)

/-- The reference library with cascadia's type selectors: `html.Render`, type
selectors, `Flatten`. -/
def casc : Lib :=
  ⟨render, matchType, Flatten⟩

/-- The document of `<div><svg><linearGradient></linearGradient></svg></div>`:
inside `svg` the parser spells the tag `linearGradient`. -/
def doc13 : Node :=
  parsedDoc [el "div" [] [el "svg" [] [el "linearGradient" [] []]]]

/-- The `div` of `doc13`. -/
def div13 : Selection :=
  bodyChildren casc 13 doc13

/-- The `linearGradient` of `doc13`: `div.Children().Children()`. -/
def lg13 : Selection :=
  div13.Children.Children

/-- The node of the `div` of `doc13`. -/
def divNode13 : Handle :=
  div13.Nodes.headD (Handle.root 13 doc13)

/-- The node of the `svg` of `doc13`. -/
def svgNode13 : Handle :=
  div13.Children.Nodes.headD (Handle.root 13 doc13)

/-- The node of the `linearGradient` of `doc13`. -/
def lgNode13 : Handle :=
  lg13.Nodes.headD (Handle.root 13 doc13)

/-- The document of
`<section><span>x</span></section><article><span>x</span></article>`. -/
def doc15 : Node :=
  parsedDoc [el "section" [] [el "span" [] [txt "x"]], el "article" [] [el "span" [] [txt "x"]]]

/-- The `section` and the `article` of `doc15`: the selection
`NewSelectionFromStr` returns. -/
def top15 : Selection :=
  bodyChildren std 15 doc15

/-- The `article` and the `section` of `doc15`, in this order:
`top.Eq(1).AddSelection(top.Eq(0))`. -/
def articleSection15 : Selection :=
  ⟨appendWithoutDuplicates (top15.Eq 1).Nodes (top15.Eq 0).Nodes⟩

/-- The `span` of the `section` of `doc15`. -/
def span15 : Selection :=
  (top15.Eq 0).Find std "span"

/-- The node of the `span` of the `section` of `doc15`. -/
def sectionSpan15 : Handle :=
  span15.Nodes.headD (Handle.root 15 doc15)

/-- The node of the `span` of the `article` of `doc15`. -/
def articleSpan15 : Handle :=
  ((top15.Eq 1).Find std "span").Nodes.headD (Handle.root 15 doc15)

end Gqpp

/-! ## Theorems -/

namespace Gqpp

/-! ### Shared lemmas -/

theorem eachFrom_unchanged {σ : Type} (f : Nat → Selection → σ → Outcome σ) (st : σ)
    (nodes : List Handle) (i : Nat)
    (h : ∀ x ∈ nodes, ∀ j, f j (newSingleSelection x) st = .ret st) :
    eachFrom f i nodes st = .ret st := by
  induction nodes generalizing i with
  | nil => rfl
  | cons n rest ih =>
    unfold eachFrom
    rw [h n (List.mem_cons_self _ _) i]
    exact ih (i + 1) (fun x hx j => h x (List.mem_cons_of_mem _ hx) j)

theorem Parent_nil : (Selection.mk []).Parent = Selection.mk [] := rfl

/-! ### C1 -/

/-- C1 (as stated, refuted): on `<div><p><span>x</span></p></div>`, with the
`div` as root and the `span` as child, `CalculateNodeDepth` returns depth 2 for
no amount of fuel. -/
theorem C1_depth_is_not_two :
    ¬ ∃ fuel : Nat, CalculateNodeDepth std fuel div1 span1 = .ret (2, none) := by
  rintro ⟨fuel, h⟩
  match fuel, h with
  | 0, h => exact absurd h (by decide)
  | 1, h => exact absurd h (by decide)
  | n + 2, h =>
    have h1 : CalculateNodeDepth std (n + 2) div1 span1 = .ret (1, none) := rfl
    rw [h1] at h
    exact absurd h (by decide)

/-- C1 (amended): on `<div><p><span>x</span></p></div>`, with the `div` as root
and the `span` as child, `CalculateNodeDepth` returns depth 1 and no error (the
climb needs two steps: `p`, which is counted, then the `div`, which stops it). -/
theorem C1_depth_is_one (fuel : Nat) :
    CalculateNodeDepth std (fuel + 2) div1 span1 = .ret (1, none) := by
  rfl


/-! ### C2 -/

theorem Parent_single (h : Handle) :
    (newSingleSelection h).Parent =
      ⟨match h.up with
        | [] => []
        | (_, p) :: rest => if p.type = NodeType.ElementNode then [⟨p, rest, h.doc⟩] else []⟩ := by
  obtain ⟨n, up, doc⟩ := h
  cases up with
  | nil => rfl
  | cons ip rest =>
    obtain ⟨i, p⟩ := ip
    by_cases hp : p.type = NodeType.ElementNode
    · simp [Selection.Parent, getParentNodes, mapNodes, newSingleSelection, Handle.parent, hp,
        appendWithoutDuplicates, List.enum, List.enumFrom]
    · simp [Selection.Parent, getParentNodes, mapNodes, newSingleSelection, Handle.parent, hp,
        List.enum, List.enumFrom]

theorem countParents_nil (tagNames : List String) (count : Int) :
    countParents tagNames ⟨[]⟩ count = count := by
  rw [countParents]
  simp [Selection.Length]

theorem countParents_single (tagNames : List String) (a : Handle) (count : Int) :
    countParents tagNames (newSingleSelection a) count =
      countParents tagNames (newSingleSelection a).Parent
        (if nodeName a.node ∈ tagNames then count + 1 else count) := by
  rw [countParents]
  simp [Selection.Length, newSingleSelection, NodeName]

theorem countParents_chain (tagNames : List String) (n : Node) (up : List (Nat × Node))
    (doc : Nat) (count : Int) :
    countParents tagNames (newSingleSelection ⟨n, up, doc⟩).Parent count =
      count + (countTaggedAncestors tagNames ⟨n, up, doc⟩ : Nat) := by
  induction up generalizing n count with
  | nil =>
    rw [Parent_single]
    simp [countParents_nil, countTaggedAncestors, Handle.elementAncestors, Handle.ancestors,
      ancestorsFrom]
  | cons ip rest ih =>
    obtain ⟨i, p⟩ := ip
    rw [Parent_single]
    by_cases hp : p.type = NodeType.ElementNode
    · have h1 := countParents_single tagNames ⟨p, rest, doc⟩
        count
      simp only [newSingleSelection] at h1 ih
      simp only [hp, if_true]
      rw [h1, ih]
      by_cases ht : nodeName p ∈ tagNames
      · simp [countTaggedAncestors, Handle.elementAncestors, Handle.ancestors, ancestorsFrom, hp,
          ht, List.takeWhile_cons, List.countP_cons]
        ring
      · simp [countTaggedAncestors, Handle.elementAncestors, Handle.ancestors, ancestorsFrom, hp,
          ht, List.takeWhile_cons, List.countP_cons]
    · simp [hp, countParents_nil, countTaggedAncestors, Handle.elementAncestors, Handle.ancestors,
        ancestorsFrom, List.takeWhile_cons]


theorem eachWithBreakFrom_first {σ : Type} (f : Nat → Selection → σ → Bool × σ) (st st1 : σ)
    (pre post : List Handle) (d : Handle) (i : Nat)
    (hpre : ∀ x ∈ pre, ∀ j, f j (newSingleSelection x) st = (true, st))
    (hd : ∀ j, f j (newSingleSelection d) st = (false, st1)) :
    eachWithBreakFrom f i (pre ++ d :: post) st = st1 := by
  induction pre generalizing i with
  | nil =>
    simp only [List.nil_append]
    unfold eachWithBreakFrom
    rw [hd i]
  | cons n rest ih =>
    simp only [List.cons_append]
    unfold eachWithBreakFrom
    rw [hpre n (List.mem_cons_self _ _) i]
    exact ih (i + 1) (fun x hx j => hpre x (List.mem_cons_of_mem _ hx) j)

theorem CountMatchingParentTags_first (L : Lib) (root child : Selection) (tagNames : List String)
    (childHtml : String) (pre post : List Handle) (d : Handle)
    (hchild : NewHtmlFromSelection L child = .ok childHtml)
    (hfind : (root.Find L (NodeName child)).Nodes = pre ++ d :: post)
    (hpre : ∀ x ∈ pre, ∃ h, NewHtmlFromSelection L (newSingleSelection x) = .ok h ∧ h ≠ childHtml)
    (hd : NewHtmlFromSelection L (newSingleSelection d) = .ok childHtml) :
    CountMatchingParentTags L root child tagNames =
      (((countTaggedAncestors tagNames d : Nat) : Int), none) := by
  unfold CountMatchingParentTags
  simp only [hchild, Selection.EachWithBreak, hfind]
  rw [eachWithBreakFrom_first (countEach L tagNames childHtml) ⟨0, false, none⟩
    ⟨((countTaggedAncestors tagNames d : Nat) : Int), true, none⟩ pre post d 0]
  · simp
  · intro x hx j
    obtain ⟨h, hh, hne⟩ := hpre x hx
    simp [countEach, hh, hne]
  · intro j
    obtain ⟨n, up, doc⟩ := d
    simp [countEach, hd, countParents_chain]


theorem nodeName_element {n : Node} (h : n.type = NodeType.ElementNode) : nodeName n = n.data := by
  unfold nodeName
  rw [h]

theorem countTagged_all_ancestors (tagNames : List String) (n : Node) (up : List (Nat × Node))
    (doc : Nat)
    (hdoc : ∀ a ∈ Handle.ancestors ⟨n, up, doc⟩, a.node.type = NodeType.ElementNode ∨ a.up = []) :
    countTaggedAncestors tagNames ⟨n, up, doc⟩ =
      (Handle.ancestors ⟨n, up, doc⟩).countP
        (fun a => a.node.type = NodeType.ElementNode ∧ a.node.data ∈ tagNames) := by
  induction up generalizing n with
  | nil => rfl
  | cons ip rest ih =>
    obtain ⟨i, p⟩ := ip
    have ih1 := ih p (fun a ha => hdoc a (by
      simp only [Handle.ancestors, ancestorsFrom] at ha ⊢
      exact List.mem_cons_of_mem _ ha))
    simp only [countTaggedAncestors, Handle.elementAncestors, Handle.ancestors] at ih1 ⊢
    by_cases hp : p.type = NodeType.ElementNode
    · simp only [ancestorsFrom, List.takeWhile_cons, hp, decide_True, if_true, List.countP_cons,
        ih1, nodeName_element hp, true_and]
    · have hrest : rest = [] := by
        rcases hdoc ⟨p, rest, doc⟩ (by simp [Handle.ancestors, ancestorsFrom]) with h | h
        · exact absurd h hp
        · exact h
      subst hrest
      simp [ancestorsFrom, List.takeWhile_cons, hp]

theorem appendWithoutDuplicates_sublist (nodes target : List Handle) :
    ∃ l, List.Sublist l nodes ∧ appendWithoutDuplicates target nodes = target ++ l := by
  unfold appendWithoutDuplicates
  induction nodes generalizing target with
  | nil => exact ⟨[], List.Sublist.slnil, by simp⟩
  | cons n rest ih =>
    rw [List.foldl_cons]
    by_cases hany : target.any (fun m => m.same n) = true
    · obtain ⟨l, hl, heq⟩ := ih target
      refine ⟨l, List.Sublist.cons n hl, ?_⟩
      simp only [hany, if_true]
      exact heq
    · obtain ⟨l, hl, heq⟩ := ih (target ++ [n])
      refine ⟨n :: l, List.Sublist.cons₂ n hl, ?_⟩
      simp only [hany, Bool.false_eq_true, if_false]
      rw [heq]
      simp

mutual
theorem matchAll_sublist (m : Handle → Bool) (doc : Nat) :
    ∀ (n : Node) (up : List (Nat × Node)), List.Sublist (matchAll m doc n up) (subtree doc n up)
  | .mk t d a cs, up => by
    unfold matchAll subtree
    have h := matchAllFrom_sublist m doc (.mk t d a cs) up 0 cs
    split
    · exact List.Sublist.cons₂ _ h
    · exact List.Sublist.cons _ h
theorem matchAllFrom_sublist (m : Handle → Bool) (doc : Nat) (parent : Node)
    (up : List (Nat × Node)) :
    ∀ (i : Nat) (cs : List Node),
      List.Sublist (matchAllFrom m doc parent up i cs) (subtreeFrom doc parent up i cs)
  | _, [] => by
    unfold matchAllFrom subtreeFrom
    exact List.Sublist.slnil
  | i, c :: cs => by
    unfold matchAllFrom subtreeFrom
    exact List.Sublist.append (matchAll_sublist m doc c ((i, parent) :: up))
      (matchAllFrom_sublist m doc parent up (i + 1) cs)
end

theorem flatMap_filter_sublist {α β : Type} (p : α → Bool) (f g : α → List β)
    (hfg : ∀ a, List.Sublist (f a) (g a)) (l : List α) :
    List.Sublist ((l.filter p).flatMap f) (l.flatMap g) := by
  induction l with
  | nil => exact List.Sublist.slnil
  | cons a rest ih =>
    rw [List.filter_cons, List.flatMap_cons]
    split
    · rw [List.flatMap_cons]
      exact List.Sublist.append (hfg a) ih
    · exact List.sublist_append_of_sublist_right ih

theorem Find_single_sublist (L : Lib) (r : Handle) (selector : String) :
    List.Sublist ((newSingleSelection r).Find L selector).Nodes r.descendants := by
  have hsub : List.Sublist
      ((r.childHandles.filter (fun c => c.node.type = NodeType.ElementNode)).flatMap
        (fun c => matchAll (L.Match selector) c.doc c.node c.up)) r.descendants :=
    flatMap_filter_sublist (fun c => c.node.type = NodeType.ElementNode)
      (fun c => matchAll (L.Match selector) c.doc c.node c.up)
      (fun c => subtree c.doc c.node c.up)
      (fun c => matchAll_sublist (L.Match selector) c.doc c.node c.up) r.childHandles
  have hval : ∃ vals, List.Sublist vals r.descendants
      ∧ ((newSingleSelection r).Find L selector).Nodes
          = if vals.length > 0 then appendWithoutDuplicates [] vals else [] :=
    ⟨_, hsub, rfl⟩
  obtain ⟨vals, hvals, heq⟩ := hval
  rw [heq]
  split
  · obtain ⟨l, hl, hl2⟩ := appendWithoutDuplicates_sublist vals []
    rw [hl2, List.nil_append]
    exact hl.trans hvals
  · exact List.nil_sublist _

/-- C2 (as stated, refuted).  First, in
`<section><span>x</span></section><article><span>x</span></article>` with the
root `article.AddSelection(section)` (the `article` comes first in it), the
`span` of the `section` as child and the tag name `section`: the two `span`s
have the tag name of child and serialize equal to child, the first of them in
document order is the one of the `section`, which has one ancestor named
`section`, and `CountMatchingParentTags` returns 0, the count of the `span` of
the `article`, which the query of this root yields first.  Second, in
`<div><svg><linearGradient></linearGradient></svg></div>` with the `div` as
root, the `linearGradient` as child and the tag name `svg`, the selector engine
compiling a type selector in lower case as cascadia does: the child is a
descendant of root with its own tag name and serialization and has one
ancestor named `svg`, yet the query for `linearGradient` yields no node and
`CountMatchingParentTags` returns an error. -/
theorem C2_first_of_query_not_of_document :
    ((Handle.root 15 doc15).descendantsNamed (NodeName span15) = [sectionSpan15, articleSpan15]
        ∧ (articleSection15.Find std (NodeName span15)).Nodes = [articleSpan15, sectionSpan15]
        ∧ NewHtmlFromSelection std span15 = .ok "<span>x</span>"
        ∧ NewHtmlFromSelection std (newSingleSelection sectionSpan15) = .ok "<span>x</span>"
        ∧ NewHtmlFromSelection std (newSingleSelection articleSpan15) = .ok "<span>x</span>"
        ∧ countTaggedAncestors ["section"] sectionSpan15 = 1
        ∧ CountMatchingParentTags std articleSection15 span15 ["section"] = (0, none))
      ∧ (div13.Nodes = [divNode13]
        ∧ lg13.Nodes = [lgNode13]
        ∧ divNode13.descendantsNamed (NodeName lg13) = [lgNode13]
        ∧ NewHtmlFromSelection casc lg13 = .ok "<linearGradient></linearGradient>"
        ∧ countTaggedAncestors ["svg"] lgNode13 = 1
        ∧ (div13.Find casc (NodeName lg13)).Nodes = []
        ∧ CountMatchingParentTags casc div13 lg13 ["svg"]
            = (-1, some ⟨"child node not found within the root", []⟩)) :=
  ⟨⟨rfl, rfl, rfl, rfl, rfl, rfl,
      (CountMatchingParentTags_first std articleSection15 span15 ["section"] "<span>x</span>" []
        [sectionSpan15] articleSpan15 rfl rfl (fun x hx => absurd hx (List.not_mem_nil x))
        rfl).trans rfl⟩,
    ⟨rfl, rfl, rfl, rfl, rfl, rfl, rfl⟩⟩

/-- C2 (amended): when the serialization of `child` succeeds and the result of
the query `root.Find(NodeName(child))` has a first node `d` whose serialization
equals that of `child` (first in the order of the result, the nodes before it
serializing, without error, to something else), `CountMatchingParentTags`
returns, with a nil error, the number of element ancestors of `d` whose tag name
is in `tagNames`: `d` itself is left out, and the walk goes on above `root` to
the top of the document.  In a document where every ancestor but the topmost is
an element, this is the number of all ancestors of `d` that are elements with a
tag name in `tagNames`.  For a root of one node the result of the query lists
descendants of that node in document order. -/
theorem C2_count_matching_parent_tags (L : Lib) (root child : Selection)
    (tagNames : List String) (childHtml : String) (pre post : List Handle) (d : Handle)
    (hchild : NewHtmlFromSelection L child = .ok childHtml)
    (hfind : (root.Find L (NodeName child)).Nodes = pre ++ d :: post)
    (hpre : ∀ x ∈ pre, ∃ h, NewHtmlFromSelection L (newSingleSelection x) = .ok h ∧ h ≠ childHtml)
    (hd : NewHtmlFromSelection L (newSingleSelection d) = .ok childHtml) :
    CountMatchingParentTags L root child tagNames =
        (((countTaggedAncestors tagNames d : Nat) : Int), none)
      ∧ ((∀ a ∈ d.ancestors, a.node.type = NodeType.ElementNode ∨ a.up = []) →
          countTaggedAncestors tagNames d =
            d.ancestors.countP
              (fun a => a.node.type = NodeType.ElementNode ∧ a.node.data ∈ tagNames))
      ∧ (∀ r : Handle, root = newSingleSelection r →
          List.Sublist (pre ++ d :: post) r.descendants) :=
  ⟨CountMatchingParentTags_first L root child tagNames childHtml pre post d hchild hfind hpre hd,
    fun hdoc => countTagged_all_ancestors tagNames d.node d.up d.doc hdoc,
    fun r hr => by
      rw [← hfind, hr]
      exact Find_single_sublist L r (NodeName child)⟩

/-- C2 at work: in `<div><span>y</span><section><p><span>x</span></p></section></div>`
with the `div` as root and the second `span` as child, the first `span` is
passed over and three ancestors of the second are counted for
`section`, `div`, `body`: the walk goes above the root `div`. -/
theorem C2_count_matching_parent_tags_witness :
    (div6.Find std (NodeName spanX6)).Nodes = [spanNodeY6] ++ spanNodeX6 :: []
      ∧ NewHtmlFromSelection std (newSingleSelection spanNodeY6) = .ok "<span>y</span>"
      ∧ NewHtmlFromSelection std (newSingleSelection spanNodeX6) = .ok "<span>x</span>"
      ∧ CountMatchingParentTags std div6 spanX6 ["section", "div", "body"] = (3, none)
      ∧ div6 = newSingleSelection divNode6
      ∧ List.Sublist ([spanNodeY6] ++ spanNodeX6 :: []) divNode6.descendants :=
  ⟨rfl, rfl, rfl,
    (C2_count_matching_parent_tags std div6 spanX6 ["section", "div", "body"] "<span>x</span>"
      [spanNodeY6] [] spanNodeX6 rfl rfl
      (fun x hx => by
        rw [List.mem_singleton.mp hx]
        exact ⟨"<span>y</span>", rfl, by decide⟩)
      rfl).1.trans rfl,
    rfl,
    (C2_count_matching_parent_tags std div6 spanX6 ["section", "div", "body"] "<span>x</span>"
      [spanNodeY6] [] spanNodeX6 rfl rfl
      (fun x hx => by
        rw [List.mem_singleton.mp hx]
        exact ⟨"<span>y</span>", rfl, by decide⟩)
      rfl).2.2 divNode6 rfl⟩

/-! ### C3 -/

/-- C3 (as stated, refuted): on `<div><p><span>x</span></p></div>`, with the
`div` as root and the `span` as child, `CountMatchingParentTags` with the tag
names `div`, `p` does not return 1. -/
theorem C3_count_div_p_is_not_one :
    CountMatchingParentTags std div1 span1 ["div", "p"] ≠ (1, none) := by
  have h := CountMatchingParentTags_first std div1 span1 ["div", "p"] "<span>x</span>" []
    [] spanNode1 rfl rfl (fun x hx => absurd hx (List.not_mem_nil x)) rfl
  rw [h]
  decide

/-- C3 (amended): on `<div><p><span>x</span></p></div>`, with the `div` as root
and the `span` as child, `CountMatchingParentTags` returns 2 for the tag names
`div`, `p` (the ancestors `p` and `div` of the `span`; the root itself is an
ancestor and is counted) and 1 for the tag name `p`, each with a nil error. -/
theorem C3_count_div_p_is_two :
    CountMatchingParentTags std div1 span1 ["div", "p"] = (2, none)
      ∧ CountMatchingParentTags std div1 span1 ["p"] = (1, none) :=
  ⟨(CountMatchingParentTags_first std div1 span1 ["div", "p"] "<span>x</span>" []
      [] spanNode1 rfl rfl (fun x hx => absurd hx (List.not_mem_nil x)) rfl).trans rfl,
    (CountMatchingParentTags_first std div1 span1 ["p"] "<span>x</span>" []
      [] spanNode1 rfl rfl (fun x hx => absurd hx (List.not_mem_nil x)) rfl).trans rfl⟩


/-! ### C4 -/

/-- C4 (the code at its failing inputs): when the serializations of `root` and
`child` succeed and every node the query of `root` for the tag name of `child`
yields serializes to something else than `child` (so: no matching node in
`root`), `CalculateNodeDepth` returns depth 0 with a nil error, not an error. -/
theorem C4_no_match_returns_depth_zero (L : Lib) (fuel : Nat) (root child : Selection)
    (childHtml rootHtml : String)
    (hchild : NewHtmlFromSelection L child = .ok childHtml)
    (hroot : NewHtmlFromSelection L root = .ok rootHtml)
    (hnone : ∀ x ∈ (root.Find L (NodeName child)).Nodes,
      ∃ h, NewHtmlFromSelection L (newSingleSelection x) = .ok h ∧ h ≠ childHtml) :
    CalculateNodeDepth L fuel root child = .ret (0, none) := by
  unfold CalculateNodeDepth
  simp only [hchild, hroot, Selection.Each]
  rw [eachFrom_unchanged]
  · rfl
  · intro x hx j
    obtain ⟨h, hh, hne⟩ := hnone x hx
    simp [depthEach, hh, hne]

/-- C4 at a failing input: in
`<div><span>y</span><section><p><span>x</span></p></section></div>` the `section`
as root and the first `span`, which lies outside it, as child: the one `span`
inside the `section` serializes to something else. -/
theorem C4_no_match_returns_depth_zero_witness :
    (section6.Find std (NodeName spanY6)).Nodes = [spanNodeX6]
      ∧ NewHtmlFromSelection std spanY6 = .ok "<span>y</span>"
      ∧ NewHtmlFromSelection std (newSingleSelection spanNodeX6) = .ok "<span>x</span>"
      ∧ CalculateNodeDepth std 5 section6 spanY6 = .ret (0, none) :=
  ⟨rfl, rfl, rfl,
    C4_no_match_returns_depth_zero std 5 section6 spanY6 "<span>y</span>"
      "<section><p><span>x</span></p></section>" rfl rfl
      (fun x hx => by
        have hx1 : x ∈ [spanNodeX6] := hx
        rw [List.mem_singleton.mp hx1]
        exact ⟨"<span>x</span>", rfl, by decide⟩)⟩

/-! ### C5 -/

/-- C5 (the code at its failing input): with the `div` of
`<div><p><span>x</span></p></div>` as root and as child, `CalculateNodeDepth`
returns depth 0 with a nil error. -/
theorem C5_root_in_itself_returns_depth_zero (fuel : Nat) :
    CalculateNodeDepth std fuel div1 div1 = .ret (0, none) := by
  rfl

/-! ### C6 -/

/-- C6 (the code at its failing input): on
`<div><p><span>x</span></p><p><span>x</span></p></div>`, with the `div` as root
and the first `span` as child, `CalculateNodeDepth` returns 2, the sum of the
depths of the two `span`s, while on `<div><p><span>x</span></p></div>`, where
only the first occurrence is present, it returns 1. -/
theorem C6_two_matches_add_up (fuel : Nat) :
    CalculateNodeDepth std (fuel + 2) div2 span2 = .ret (2, none)
      ∧ CalculateNodeDepth std (fuel + 2) div1 span1 = .ret (1, none) :=
  ⟨rfl, rfl⟩

/-! ### C7 -/

/-- C7 (the code at its failing inputs): with a stop condition that returns
false on every ancestor of `s` (the parent of `s`, its parent, and so on, the
empty selection above the top of the document included), `ClimbTreeUntil`
returns nothing, whatever the fuel: no error comes back, the recursion goes on
from empty parent to empty parent. -/
theorem C7_climb_never_returns {σ : Type} (cond : Selection → σ → Outcome (Bool × σ))
    (s : Selection)
    (hcond : ∀ (k : Nat) (st : σ), ∃ st1, cond (Selection.Parent^[k + 1] s) st = .ret (false, st1))
    (fuel : Nat) (st : σ) :
    ClimbTreeUntil cond fuel s st = .outOfFuel := by
  induction fuel generalizing s st with
  | zero => rfl
  | succ n ih =>
    obtain ⟨st1, h1⟩ := hcond 0 st
    simp only [zero_add, Function.iterate_one] at h1
    unfold ClimbTreeUntil
    simp only [h1]
    exact ih s.Parent (fun k st2 => by
      have h2 := hcond (k + 1) st2
      rw [Function.iterate_succ_apply] at h2
      exact h2) st1

/-- C7 at a failing input: the `span` of `<div><p><span>x</span></p></div>` and
the condition that is false everywhere. -/
theorem C7_climb_never_returns_witness :
    (∀ (k : Nat) (st : Unit),
        ∃ st1, (fun (_ : Selection) (u : Unit) => Outcome.ret (false, u))
          (Selection.Parent^[k + 1] span1) st = Outcome.ret (false, st1))
      ∧ ClimbTreeUntil (fun (_ : Selection) (u : Unit) => Outcome.ret (false, u)) 1000 span1 ()
          = .outOfFuel :=
  ⟨fun _ st => ⟨st, rfl⟩,
    C7_climb_never_returns (fun (_ : Selection) (u : Unit) => Outcome.ret (false, u)) span1
      (fun _ st => ⟨st, rfl⟩) 1000 ()⟩

/-! ### C8 -/

theorem sliceStr_ret (s : String) (h : 30 ≤ s.utf8ByteSize) :
    sliceStr s 0 30 = .ret ((goBytes s).take 30) := by
  simp [sliceStr, h]

theorem depthCond_empty (L : Lib) (childHtml rootHtml : String)
    (hc : 30 ≤ childHtml.utf8ByteSize) (hr : 30 ≤ rootHtml.utf8ByteSize)
    (hne : L.Flatten "" ≠ rootHtml) (v : DepthVars) :
    ∃ v1, depthCond L childHtml rootHtml ⟨[]⟩ v = .ret (false, v1) := by
  simp [depthCond, Selection.Length, sliceStr_ret, hc, hr, Outcome.bind, NewHtmlFromSelection,
    OuterHtml, hne]

theorem ClimbTreeUntil_empty_diverges (L : Lib) (childHtml rootHtml : String)
    (hc : 30 ≤ childHtml.utf8ByteSize) (hr : 30 ≤ rootHtml.utf8ByteSize)
    (hne : L.Flatten "" ≠ rootHtml) (fuel : Nat) (v : DepthVars) :
    ClimbTreeUntil (depthCond L childHtml rootHtml) fuel ⟨[]⟩ v = .outOfFuel := by
  induction fuel generalizing v with
  | zero => rfl
  | succ n ih =>
    obtain ⟨v1, h1⟩ := depthCond_empty L childHtml rootHtml hc hr hne v
    unfold ClimbTreeUntil
    simp only [Parent_nil, h1]
    exact ih v1


theorem CalculateNodeDepth_doc4 (fuel : Nat) :
    ∃ v, CalculateNodeDepth std (fuel + 4) divs4 i4 =
      (((ClimbTreeUntil
          (depthCond std "<i>222222222222222222222222222222</i>"
            "<div><b>111111111111111111111111111111</b></div>") fuel ⟨[]⟩ v).bind
          (fun r => Outcome.ret r.2)).bind (fun st1 => Outcome.ret st1)).bind
        (fun v =>
          match v.potErr with
          | some err => Outcome.ret (-1, some err)
          | none => Outcome.ret (v.depth, none)) :=
  ⟨_, rfl⟩

/-- C8 (the code at its failing inputs): with the two `div`s of
`<div><b>1</b></div><div><i>2</i></div>` as root (its serialization is that of
the first `div`) and the `i` as child, the climb from `i` reaches the empty
parent above `html`; there `CalculateNodeDepth` panics on `childHtml[0:30]`, the
serialization `<i>2</i>` being shorter than 30 bytes.  With texts of thirty
characters in place of `1` and `2` nothing panics and the climb goes on from
the empty parent without end: for no fuel does the call return. -/
theorem C8_exhausted_chain_never_returns_error :
    (∀ fuel : Nat,
        CalculateNodeDepth std (fuel + 4) divs3 i3 = .panicked "slice bounds out of range")
      ∧ (∀ fuel : Nat, CalculateNodeDepth std fuel divs4 i4 = .outOfFuel) := by
  refine ⟨fun _ => rfl, fun fuel => ?_⟩
  match fuel with
  | 0 => rfl
  | 1 => rfl
  | 2 => rfl
  | 3 => rfl
  | n + 4 =>
    obtain ⟨v, hv⟩ := CalculateNodeDepth_doc4 n
    rw [hv, ClimbTreeUntil_empty_diverges std _ _ (by decide) (by decide) (by decide)]
    rfl


/-! ### C9 and C10 -/

theorem depthCond_depth_le {L : Lib} {childHtml rootHtml : String} {parent : Selection}
    {v v1 : DepthVars} {b : Bool} (h : depthCond L childHtml rootHtml parent v = .ret (b, v1)) :
    v.depth ≤ v1.depth := by
  unfold depthCond at h
  by_cases hlen : parent.Length = 0
  · simp only [hlen, if_true] at h
    cases hc : sliceStr childHtml 0 30 with
    | panicked m => simp [hc, Outcome.bind] at h
    | outOfFuel => simp [hc, Outcome.bind] at h
    | ret c =>
      cases hr : sliceStr rootHtml 0 30 with
      | panicked m => simp [hc, hr, Outcome.bind] at h
      | outOfFuel => simp [hc, hr, Outcome.bind] at h
      | ret r =>
        simp only [hc, hr, Outcome.bind] at h
        cases hp : NewHtmlFromSelection L parent with
        | error e =>
          simp only [hp, Outcome.ret.injEq, Prod.mk.injEq] at h
          rw [← h.2]
        | ok s =>
          simp only [hp] at h
          split at h
          · simp only [Outcome.ret.injEq, Prod.mk.injEq] at h
            rw [← h.2]
          · simp only [Outcome.ret.injEq, Prod.mk.injEq] at h
            rw [← h.2]
            simp
  · simp only [hlen, if_false, Outcome.bind] at h
    cases hp : NewHtmlFromSelection L parent with
    | error e =>
      simp only [hp, Outcome.ret.injEq, Prod.mk.injEq] at h
      rw [← h.2]
    | ok s =>
      simp only [hp] at h
      split at h
      · simp only [Outcome.ret.injEq, Prod.mk.injEq] at h
        rw [← h.2]
      · simp only [Outcome.ret.injEq, Prod.mk.injEq] at h
        rw [← h.2]
        simp

theorem ClimbTreeUntil_depth_le {L : Lib} {childHtml rootHtml : String} {fuel : Nat}
    {s : Selection} {v v1 : DepthVars} {e : Option GoError}
    (h : ClimbTreeUntil (depthCond L childHtml rootHtml) fuel s v = .ret (e, v1)) :
    v.depth ≤ v1.depth := by
  induction fuel generalizing s v with
  | zero => simp [ClimbTreeUntil] at h
  | succ n ih =>
    unfold ClimbTreeUntil at h
    cases hc : depthCond L childHtml rootHtml s.Parent v with
    | panicked m => simp [hc] at h
    | outOfFuel => simp [hc] at h
    | ret r =>
      obtain ⟨b, v2⟩ := r
      have h2 := depthCond_depth_le hc
      cases b with
      | true =>
        simp only [hc, Outcome.ret.injEq, Prod.mk.injEq] at h
        rw [← h.2]
        exact h2
      | false =>
        simp only [hc] at h
        exact le_trans h2 (ih h)

theorem depthEach_depth_le {L : Lib} {childHtml rootHtml : String} {fuel i : Nat}
    {search : Selection} {v v1 : DepthVars}
    (h : depthEach L fuel childHtml rootHtml i search v = .ret v1) : v.depth ≤ v1.depth := by
  unfold depthEach at h
  cases hs : NewHtmlFromSelection L search with
  | error e =>
    simp only [hs, Outcome.ret.injEq] at h
    rw [← h]
  | ok s =>
    simp only [hs] at h
    split at h
    · cases hc : ClimbTreeUntil (depthCond L childHtml rootHtml) fuel search v with
      | panicked m => simp [hc, Outcome.bind] at h
      | outOfFuel => simp [hc, Outcome.bind] at h
      | ret r =>
        simp only [hc, Outcome.bind, Outcome.ret.injEq] at h
        rw [← h]
        exact @ClimbTreeUntil_depth_le L childHtml rootHtml fuel search v r.2 r.1 hc
    · simp only [Outcome.ret.injEq] at h
      rw [← h]

theorem eachFrom_depth_le {L : Lib} {childHtml rootHtml : String} {fuel : Nat}
    {nodes : List Handle} {i : Nat} {v v1 : DepthVars}
    (h : eachFrom (depthEach L fuel childHtml rootHtml) i nodes v = .ret v1) :
    v.depth ≤ v1.depth := by
  induction nodes generalizing i v with
  | nil =>
    simp only [eachFrom, Outcome.ret.injEq] at h
    rw [← h]
  | cons n rest ih =>
    unfold eachFrom at h
    cases hc : depthEach L fuel childHtml rootHtml i (newSingleSelection n) v with
    | panicked m => simp [hc, Outcome.bind] at h
    | outOfFuel => simp [hc, Outcome.bind] at h
    | ret v2 =>
      simp only [hc, Outcome.bind] at h
      exact le_trans (depthEach_depth_le hc) (ih h)

theorem CalculateNodeDepth_nonneg {L : Lib} {fuel : Nat} {root child : Selection} {d : Int}
    (h : CalculateNodeDepth L fuel root child = .ret (d, none)) : 0 ≤ d := by
  unfold CalculateNodeDepth at h
  cases hc : NewHtmlFromSelection L child with
  | error e => simp [hc] at h
  | ok childHtml =>
    cases hr : NewHtmlFromSelection L root with
    | error e => simp [hc, hr] at h
    | ok rootHtml =>
      simp only [hc, hr, Selection.Each] at h
      cases he : eachFrom (depthEach L fuel childHtml rootHtml) 0
          (root.Find L (NodeName child)).Nodes ⟨0, none⟩ with
      | panicked m => simp [he, Outcome.bind] at h
      | outOfFuel => simp [he, Outcome.bind] at h
      | ret v =>
        have hle := eachFrom_depth_le he
        simp only [he, Outcome.bind] at h
        cases hp : v.potErr with
        | some e => simp [hp] at h
        | none =>
          simp only [hp, Outcome.ret.injEq, Prod.mk.injEq, and_true] at h
          rw [← h]
          exact hle


theorem Selection.Eq_index (s : Selection) (i : Nat) (hi : i < s.Nodes.length) :
    s.Eq (i : Int) = newSingleSelection (s.Nodes.get ⟨i, hi⟩) := by
  unfold Selection.Eq newSingleSelection
  have h1 : ¬ ((i : Int) < 0) := by omega
  have h2 : ¬ (s.Nodes.length ≤ i) := by omega
  have h3 : List.take 1 (List.drop i s.Nodes) = [s.Nodes.get ⟨i, hi⟩] := by
    rw [List.drop_eq_getElem_cons hi]
    rfl
  simp [h1, h2, h3]

theorem range_map_Eq (s : Selection) :
    (List.range s.Nodes.length).map (fun i : Nat => s.Eq (i : Int))
      = s.Nodes.map newSingleSelection := by
  apply List.ext_getElem
  · simp
  · intro n h1 h2
    simp only [List.length_map, List.length_range] at h1
    simp [Selection.Eq_index s n h1]

theorem deepestInner_eq_scan (L : Lib) (fuel : Nat) (selection found : Selection)
    (is : List Nat) (v : DeepestVars) :
    deepestInner L fuel selection found is v =
      deepestScan L fuel selection (is.map (fun i : Nat => found.Eq (i : Int))) v := by
  induction is generalizing v with
  | nil => rfl
  | cons i rest ih =>
    simp only [deepestInner, List.map_cons, deepestScan]
    congr 1
    funext r
    split
    · rfl
    · exact ih _

theorem deepestScan_append (L : Lib) (fuel : Nat) (selection : Selection)
    (xs ys : List Selection) (v : DeepestVars) :
    deepestScan L fuel selection (xs ++ ys) v =
      (deepestScan L fuel selection xs v).bind (fun r =>
        match r with
        | none => .ret none
        | some v1 => deepestScan L fuel selection ys v1) := by
  induction xs generalizing v with
  | nil => rfl
  | cons x rest ih =>
    simp only [List.cons_append, deepestScan]
    cases hc : CalculateNodeDepth L fuel selection x with
    | panicked m => rfl
    | outOfFuel => rfl
    | ret r =>
      simp only [Outcome.bind]
      split
      · rfl
      · exact ih _

theorem deepestOuter_eq_scan (L : Lib) (fuel : Nat) (selection : Selection)
    (selectors : List String) (v : DeepestVars) :
    deepestOuter L fuel selection selectors v =
      deepestScan L fuel selection (candidates L selection selectors) v := by
  induction selectors generalizing v with
  | nil => rfl
  | cons selector rest ih =>
    have hc : candidates L selection (selector :: rest) =
        (selection.Find L selector).Nodes.map newSingleSelection
          ++ candidates L selection rest := by
      simp [candidates]
    rw [hc, deepestScan_append]
    unfold deepestOuter
    have hin : (if (selection.Find L selector).Length > 0 then
          deepestInner L fuel selection (selection.Find L selector)
            (List.range (selection.Find L selector).Length) v
        else Outcome.ret (some v)) =
        deepestScan L fuel selection
          ((selection.Find L selector).Nodes.map newSingleSelection) v := by
      by_cases hl : (selection.Find L selector).Length > 0
      · simp only [hl, if_true, deepestInner_eq_scan]
        rw [Selection.Length, range_map_Eq]
      · have hnil : (selection.Find L selector).Nodes = [] := by
          simp only [Selection.Length, gt_iff_lt, List.length_pos, ne_eq, not_not] at hl
          exact hl
        simp only [hl, if_false, hnil, List.map_nil, deepestScan]
    simp only [hin]
    congr 1
    funext r
    cases r with
    | none => rfl
    | some v1 => exact ih v1


theorem deepestScan_ok (L : Lib) (fuel : Nat) (selection : Selection) (rest : List Selection) :
    ∀ (seen : List Selection) (v : DeepestVars), DeepestSoFar L fuel selection seen v →
      (∀ c ∈ rest, ∃ d, CalculateNodeDepth L fuel selection c = .ret (d, none)) →
      ∃ v1, deepestScan L fuel selection rest v = .ret (some v1)
        ∧ DeepestSoFar L fuel selection (seen ++ rest) v1 := by
  induction rest with
  | nil =>
    intro seen v hinv _
    exact ⟨v, rfl, by simpa using hinv⟩
  | cons c rest ih =>
    intro seen v hinv hall
    obtain ⟨dc, hdc⟩ := hall c (List.mem_cons_self _ _)
    have hnn : 0 ≤ dc := CalculateNodeDepth_nonneg hdc
    have hrest : ∀ x ∈ rest, ∃ d, CalculateNodeDepth L fuel selection x = .ret (d, none) :=
      fun x hx => hall x (List.mem_cons_of_mem _ hx)
    have hstep : DeepestSoFar L fuel selection (seen ++ [c])
        (if dc > v.maxDepth then ⟨some c, dc⟩ else v) := by
      rcases hinv with ⟨hs, hv⟩ | ⟨pre, n, post, d, hs, hv, hn, hmax, hfirst⟩
      · subst hs hv
        have hgt : dc > (-1 : Int) := by omega
        simp only [hgt, if_true]
        refine Or.inr ⟨[], c, [], dc, rfl, rfl, hdc, ?_, ?_⟩
        · intro x hx dx hdx
          simp only [List.nil_append, List.mem_singleton] at hx
          subst hx
          rw [hdc] at hdx
          simp only [Outcome.ret.injEq, Prod.mk.injEq, and_true] at hdx
          omega
        · intro x hx
          exact absurd hx (List.not_mem_nil x)
      · subst hv
        by_cases hgt : dc > d
        · simp only [hgt, if_true]
          refine Or.inr ⟨seen, c, [], dc, rfl, rfl, hdc, ?_, ?_⟩
          · intro x hx dx hdx
            rcases List.mem_append.mp hx with h | h
            · have := hmax x h dx hdx
              omega
            · simp only [List.mem_singleton] at h
              subst h
              rw [hdc] at hdx
              simp only [Outcome.ret.injEq, Prod.mk.injEq, and_true] at hdx
              omega
          · intro x hx dx hdx
            have := hmax x hx dx hdx
            omega
        · simp only [hgt, if_false]
          refine Or.inr ⟨pre, n, post ++ [c], d, by simp [hs], rfl, hn, ?_, hfirst⟩
          intro x hx dx hdx
          rcases List.mem_append.mp hx with h | h
          · exact hmax x h dx hdx
          · simp only [List.mem_singleton] at h
            subst h
            rw [hdc] at hdx
            simp only [Outcome.ret.injEq, Prod.mk.injEq, and_true] at hdx
            omega
    obtain ⟨v1, hv1, hinv1⟩ := ih (seen ++ [c]) _ hstep hrest
    refine ⟨v1, ?_, by simpa using hinv1⟩
    simp only [deepestScan, hdc, Outcome.bind]
    exact hv1

theorem deepestScan_error (L : Lib) (fuel : Nat) (selection : Selection) (cands : List Selection)
    (hret : ∀ c ∈ cands, ∃ r, CalculateNodeDepth L fuel selection c = .ret r)
    (herr : ∃ c ∈ cands, ∃ d e, CalculateNodeDepth L fuel selection c = .ret (d, some e))
    (v : DeepestVars) : deepestScan L fuel selection cands v = .ret none := by
  induction cands generalizing v with
  | nil =>
    obtain ⟨c, hc, _⟩ := herr
    exact absurd hc (List.not_mem_nil c)
  | cons c rest ih =>
    obtain ⟨r, hr⟩ := hret c (List.mem_cons_self _ _)
    obtain ⟨d, e⟩ := r
    cases e with
    | some e => simp [deepestScan, hr, Outcome.bind]
    | none =>
      simp only [deepestScan, hr, Outcome.bind]
      apply ih (fun x hx => hret x (List.mem_cons_of_mem _ hx))
      obtain ⟨x, hx, dx, ex, hdx⟩ := herr
      rcases List.mem_cons.mp hx with h | h
      · subst h
        rw [hr] at hdx
        simp at hdx
      · exact ⟨x, h, dx, ex, hdx⟩

theorem FindDeepest_eq_scan (L : Lib) (fuel : Nat) (selection : Selection)
    (selectors : List String) :
    FindDeepestMatchingSelection L fuel selection selectors =
      (deepestScan L fuel selection (candidates L selection selectors) ⟨none, -1⟩).bind (fun r =>
        match r with
        | none => .ret none
        | some v =>
          match v.deepestSelection with
          | none => .ret none
          | some s => .ret (some s)) := by
  unfold FindDeepestMatchingSelection
  rw [deepestOuter_eq_scan]

theorem FindDeepest_first_deepest (L : Lib) (fuel : Nat) (selection : Selection)
    (selectors : List String)
    (hne : candidates L selection selectors ≠ [])
    (hall : ∀ c ∈ candidates L selection selectors,
      ∃ d, CalculateNodeDepth L fuel selection c = .ret (d, none)) :
    ∃ pre n post d, candidates L selection selectors = pre ++ n :: post
      ∧ FindDeepestMatchingSelection L fuel selection selectors = .ret (some n)
      ∧ CalculateNodeDepth L fuel selection n = .ret (d, none)
      ∧ (∀ c ∈ candidates L selection selectors, ∀ dc,
          CalculateNodeDepth L fuel selection c = .ret (dc, none) → dc ≤ d)
      ∧ (∀ c ∈ pre, ∀ dc, CalculateNodeDepth L fuel selection c = .ret (dc, none) → dc < d) := by
  obtain ⟨v1, hv1, hinv⟩ := deepestScan_ok L fuel selection (candidates L selection selectors)
    [] ⟨none, -1⟩ (Or.inl ⟨rfl, rfl⟩) hall
  rw [List.nil_append] at hinv
  rcases hinv with ⟨hs, _⟩ | ⟨pre, n, post, d, hs, hv, hn, hmax, hfirst⟩
  · exact absurd hs hne
  · refine ⟨pre, n, post, d, hs, ?_, hn, hmax, hfirst⟩
    rw [FindDeepest_eq_scan, hv1, hv]
    rfl

theorem candidates_eq_nil (L : Lib) (selection : Selection) (selectors : List String) :
    candidates L selection selectors = [] ↔
      ∀ sel ∈ selectors, (selection.Find L sel).Length = 0 := by
  simp [candidates, Selection.Length]


theorem candidates_doc5 : candidates std div5 ["b", "i"] = [outerB5, innerB5, i5] := rfl

theorem depths_doc5 (c : Selection) (hc : c ∈ candidates std div5 ["b", "i"]) :
    ∃ d, CalculateNodeDepth std 5 div5 c = .ret (d, none) := by
  rw [candidates_doc5] at hc
  simp only [List.mem_cons, List.mem_singleton, List.not_mem_nil, or_false] at hc
  rcases hc with h | h | h
  · exact ⟨0, h ▸ rfl⟩
  · exact ⟨1, h ▸ rfl⟩
  · exact ⟨0, h ▸ rfl⟩

/-- C9: when at least one selector yields a node and the depth computation of
every candidate returns a depth with a nil error, `FindDeepestMatchingSelection`
returns `(n, true)` for a candidate `n` whose depth is greater than or equal to
that of every candidate and strictly greater than that of every candidate before
it (selectors in the order given, each query result in its own order): the
first candidate of greatest depth.  On `<div><b>1</b><i><b>2</b></i></div>` with
the selectors `b`, `i` it returns the inner `b`. -/
theorem C9_find_deepest_returns_first_deepest :
    (∀ (L : Lib) (fuel : Nat) (selection : Selection) (selectors : List String),
        candidates L selection selectors ≠ [] →
        (∀ c ∈ candidates L selection selectors,
          ∃ d, CalculateNodeDepth L fuel selection c = .ret (d, none)) →
        ∃ pre n post d, candidates L selection selectors = pre ++ n :: post
          ∧ FindDeepestMatchingSelection L fuel selection selectors = .ret (some n)
          ∧ CalculateNodeDepth L fuel selection n = .ret (d, none)
          ∧ (∀ c ∈ candidates L selection selectors, ∀ dc,
              CalculateNodeDepth L fuel selection c = .ret (dc, none) → dc ≤ d)
          ∧ (∀ c ∈ pre, ∀ dc,
              CalculateNodeDepth L fuel selection c = .ret (dc, none) → dc < d))
      ∧ (∀ fuel : Nat,
          FindDeepestMatchingSelection std (fuel + 2) div5 ["b", "i"] = .ret (some innerB5)) :=
  ⟨fun L fuel selection selectors hne hall =>
      FindDeepest_first_deepest L fuel selection selectors hne hall,
    fun _ => rfl⟩

/-- C9 at work on `<div><b>1</b><i><b>2</b></i></div>` with the selectors `b`,
`i`: the candidates are the outer `b` (depth 0), the inner `b` (depth 1) and
`i` (depth 0), and a first candidate of greatest depth is returned. -/
theorem C9_find_deepest_returns_first_deepest_witness :
    candidates std div5 ["b", "i"] = [outerB5, innerB5, i5]
      ∧ CalculateNodeDepth std 5 div5 outerB5 = .ret (0, none)
      ∧ CalculateNodeDepth std 5 div5 innerB5 = .ret (1, none)
      ∧ CalculateNodeDepth std 5 div5 i5 = .ret (0, none)
      ∧ ∃ pre n post d, candidates std div5 ["b", "i"] = pre ++ n :: post
          ∧ FindDeepestMatchingSelection std 5 div5 ["b", "i"] = .ret (some n)
          ∧ CalculateNodeDepth std 5 div5 n = .ret (d, none)
          ∧ (∀ c ∈ candidates std div5 ["b", "i"], ∀ dc,
              CalculateNodeDepth std 5 div5 c = .ret (dc, none) → dc ≤ d)
          ∧ (∀ c ∈ pre, ∀ dc, CalculateNodeDepth std 5 div5 c = .ret (dc, none) → dc < d) :=
  ⟨rfl, rfl, rfl, rfl,
    C9_find_deepest_returns_first_deepest.1 std 5 div5 ["b", "i"]
      (by rw [candidates_doc5]; exact List.cons_ne_nil _ _) depths_doc5⟩

/-- What `FindDeepestMatchingSelection` does when the depth computation of
every candidate returns: it returns, and it returns `(nil, false)` if and only
if no selector yields a node or the depth computation of some candidate returns
an error; when there is a candidate and every depth computation returns a
depth, a candidate is returned, a depth returned with a nil error being greater
than the initial maximum -1.  (The result has no error component: an error of
a depth computation comes out as `(nil, false)`.) -/
theorem FindDeepest_no_match_of_returns (L : Lib) (fuel : Nat) (selection : Selection)
    (selectors : List String)
    (hret : ∀ c ∈ candidates L selection selectors,
      ∃ r, CalculateNodeDepth L fuel selection c = .ret r) :
    (∃ r, FindDeepestMatchingSelection L fuel selection selectors = .ret r)
      ∧ (FindDeepestMatchingSelection L fuel selection selectors = .ret none ↔
          ((∀ sel ∈ selectors, (selection.Find L sel).Length = 0)
            ∨ ∃ c ∈ candidates L selection selectors,
                ∃ d e, CalculateNodeDepth L fuel selection c = .ret (d, some e)))
      ∧ ((candidates L selection selectors ≠ []
            ∧ ∀ c ∈ candidates L selection selectors,
                ∃ d, CalculateNodeDepth L fuel selection c = .ret (d, none)) →
          ∃ n ∈ candidates L selection selectors,
            FindDeepestMatchingSelection L fuel selection selectors = .ret (some n))
      ∧ (∀ (c : Selection) (d : Int),
          CalculateNodeDepth L fuel selection c = .ret (d, none) → -1 < d) := by
  have hsome : (candidates L selection selectors ≠ []
      ∧ ∀ c ∈ candidates L selection selectors,
          ∃ d, CalculateNodeDepth L fuel selection c = .ret (d, none)) →
      ∃ n ∈ candidates L selection selectors,
        FindDeepestMatchingSelection L fuel selection selectors = .ret (some n) := by
    rintro ⟨hne, hall⟩
    obtain ⟨pre, n, post, d, hs, hres, _⟩ :=
      FindDeepest_first_deepest L fuel selection selectors hne hall
    exact ⟨n, by rw [hs]; simp, hres⟩
  have hnil : candidates L selection selectors = [] →
      FindDeepestMatchingSelection L fuel selection selectors = .ret none := by
    intro h
    rw [FindDeepest_eq_scan, h]
    rfl
  have herr : (∃ c ∈ candidates L selection selectors,
      ∃ d e, CalculateNodeDepth L fuel selection c = .ret (d, some e)) →
      FindDeepestMatchingSelection L fuel selection selectors = .ret none := by
    intro h
    rw [FindDeepest_eq_scan, deepestScan_error L fuel selection _ hret h]
    rfl
  have hcases : (candidates L selection selectors = []
      ∨ ∃ c ∈ candidates L selection selectors,
          ∃ d e, CalculateNodeDepth L fuel selection c = .ret (d, some e))
      ∨ (candidates L selection selectors ≠ []
        ∧ ∀ c ∈ candidates L selection selectors,
            ∃ d, CalculateNodeDepth L fuel selection c = .ret (d, none)) := by
    by_cases hne : candidates L selection selectors = []
    · exact Or.inl (Or.inl hne)
    · by_cases he : ∃ c ∈ candidates L selection selectors,
          ∃ d e, CalculateNodeDepth L fuel selection c = .ret (d, some e)
      · exact Or.inl (Or.inr he)
      · refine Or.inr ⟨hne, fun c hc => ?_⟩
        obtain ⟨r, hr⟩ := hret c hc
        obtain ⟨d, e⟩ := r
        cases e with
        | none => exact ⟨d, hr⟩
        | some e => exact absurd ⟨c, hc, d, e, hr⟩ he
  refine ⟨?_, ?_, hsome, ?_⟩
  · rcases hcases with (h | h) | h
    · exact ⟨none, hnil h⟩
    · exact ⟨none, herr h⟩
    · obtain ⟨n, _, hn⟩ := hsome h
      exact ⟨some n, hn⟩
  · rw [← candidates_eq_nil]
    constructor
    · intro hres
      rcases hcases with h | h
      · exact h
      · obtain ⟨n, _, hn⟩ := hsome h
        rw [hn] at hres
        simp at hres
    · rintro (h | h)
      · exact hnil h
      · exact herr h
  · intro c d hd
    have := CalculateNodeDepth_nonneg hd
    omega

/-- The lemma at work on `<div><b>1</b><i><b>2</b></i></div>` with the selectors
`b`, `i`: every depth computation returns, and a candidate is returned. -/
theorem FindDeepest_no_match_of_returns_doc5 :
    (∀ c ∈ candidates std div5 ["b", "i"], ∃ r, CalculateNodeDepth std 5 div5 c = .ret r)
      ∧ FindDeepestMatchingSelection std 5 div5 ["b", "i"] ≠ .ret none
      ∧ ¬ ((∀ sel ∈ ["b", "i"], (div5.Find std sel).Length = 0)
            ∨ ∃ c ∈ candidates std div5 ["b", "i"],
                ∃ d e, CalculateNodeDepth std 5 div5 c = .ret (d, some e)) := by
  have hret : ∀ c ∈ candidates std div5 ["b", "i"],
      ∃ r, CalculateNodeDepth std 5 div5 c = .ret r := fun c hc => by
    obtain ⟨d, hd⟩ := depths_doc5 c hc
    exact ⟨_, hd⟩
  have h := (FindDeepest_no_match_of_returns std 5 div5 ["b", "i"] hret).2.1
  have hres : FindDeepestMatchingSelection std 5 div5 ["b", "i"] ≠ .ret none := by
    have : FindDeepestMatchingSelection std 5 div5 ["b", "i"] = .ret (some innerB5) := rfl
    rw [this]
    simp
  exact ⟨hret, hres, fun hr => hres (h.mpr hr)⟩

theorem attrStr_fold (filter : List String) (l : List Attribute) (acc : List String) :
    l.foldl
        (fun acc attr =>
          if attr.Key ∈ filter then acc else acc ++ [attr.Key ++ "=\"" ++ attr.Val ++ "\""])
        acc =
      acc ++ (l.filter (fun a => a.Key ∉ filter)).map
        (fun a => a.Key ++ "=\"" ++ a.Val ++ "\"") := by
  induction l generalizing acc with
  | nil => simp
  | cons a rest ih =>
    rw [List.foldl_cons, ih]
    by_cases h : a.Key ∈ filter
    · simp [h]
    · simp [h]

theorem attrStr_each (filter : List String) (nodes : List Handle) (i : Nat) (acc : List String) :
    eachFrom (attrStrEach filter) i nodes acc = .ret (acc ++ attrPieces ⟨nodes⟩ filter) := by
  induction nodes generalizing i acc with
  | nil => simp [eachFrom, attrPieces]
  | cons n rest ih =>
    unfold eachFrom
    simp only [attrStrEach, newSingleSelection, Outcome.bind, attrStr_fold]
    rw [ih]
    simp [attrPieces, List.flatMap_cons]

theorem GetAttrStr_eq (selection : Selection) (filter : List String) :
    GetAttrStr selection filter = .ret (" ".intercalate (attrPieces selection filter)) := by
  unfold GetAttrStr Selection.Each
  rw [attrStr_each]
  rfl

/-- C12: `GetAttrStr` returns the pieces `name="value"` joined by single
spaces, one piece for each attribute whose name is not in `filter`, over the
nodes of the selection in their order and the attributes of a node in their
order: a piece is present exactly for the attributes of a node of the selection
with a name outside `filter`, and its value is the attribute's value as it
stands. -/
theorem C12_attr_string (selection : Selection) (filter : List String) :
    GetAttrStr selection filter = .ret (" ".intercalate (attrPieces selection filter))
      ∧ attrPieces selection filter =
          selection.Nodes.flatMap (fun n =>
            (n.node.attr.filter (fun a => a.Key ∉ filter)).map
              (fun a => a.Key ++ "=\"" ++ a.Val ++ "\""))
      ∧ (∀ piece, piece ∈ attrPieces selection filter ↔
          ∃ n ∈ selection.Nodes, ∃ a ∈ n.node.attr,
            a.Key ∉ filter ∧ piece = a.Key ++ "=\"" ++ a.Val ++ "\"") := by
  refine ⟨GetAttrStr_eq selection filter, rfl, fun piece => ?_⟩
  simp only [attrPieces, List.mem_flatMap, List.mem_map, List.mem_filter, decide_eq_true_eq]
  constructor
  · rintro ⟨n, hn, a, ⟨ha, hf⟩, rfl⟩
    exact ⟨n, hn, a, ha, hf, rfl⟩
  · rintro ⟨n, hn, a, ha, hf, rfl⟩
    exact ⟨n, hn, a, ⟨ha, hf⟩, rfl⟩


/-- C12 at work: on `<div id="a" class="x y" title="a&amp;b">hi</div>` with
`class` excluded, the two other attributes are emitted in their order, the `&`
of the third value as it stands. -/
theorem C12_attr_string_witness :
    GetAttrStr div8 ["class"] = .ret "id=\"a\" title=\"a&b\""
      ∧ GetAttrStr div8 [] = .ret "id=\"a\" class=\"x y\" title=\"a&b\"" :=
  ⟨(C12_attr_string div8 ["class"]).1.trans rfl, (C12_attr_string div8 []).1.trans rfl⟩

/-! ### C13 -/

/-- C13 (the code at its failing inputs): when the attribute is present and
`part` is the number of tokens of its value, `GetAttrPart` passes its length
check (`len(parts) < part` is false) and panics on `parts[part]`: it returns
neither the error the claim says nor anything else. -/
theorem C13_part_equal_to_length_panics (selection : Selection) (attrName val : String)
    (hattr : selection.Attr attrName = some val) :
    GetAttrPart selection attrName ((Split val).length : Int)
      = .panicked "index out of range" := by
  unfold GetAttrPart
  simp only [hattr, lt_self_iff_false, if_false]
  unfold indexStr
  have h1 : ¬ (((Split val).length : Int) < 0) := by omega
  simp only [h1, if_false, Int.toNat_ofNat]
  rw [List.get?_eq_none.mpr (le_refl _)]
  rfl

/-- C13 at a failing input: on `<div id="a" class="x y" title="a&amp;b">hi</div>`
the value of `class` has two tokens, and index 2 panics, while index 1 returns
the second token and index 3 the error. -/
theorem C13_part_equal_to_length_panics_witness :
    div8.Attr "class" = some "x y"
      ∧ Split "x y" = ["x", "y"]
      ∧ GetAttrPart div8 "class" 2 = .panicked "index out of range"
      ∧ GetAttrPart div8 "class" 1 = .ret ("y", none)
      ∧ (GetAttrPart div8 "class" 3 =
          .ret ("", some ⟨"attr: '%s' must contain %d parts", [goBytes "class", goBytes "3"]⟩)) :=
  ⟨rfl, rfl, C13_part_equal_to_length_panics div8 "class" "x y" rfl, rfl, rfl⟩

/-! ### C14 -/

/-- C14 (the code at its failing inputs): when the selection serializes and
the attribute is absent, `ForceElementAttrParts` returns the empty list with a
nil error: the error of `ForceElementAttr` is dropped. -/
theorem C14_absent_attribute_returns_nil_error (L : Lib) (sel : Selection)
    (attrToCheck htmlStr : String) (partsExpected : Int)
    (hser : NewHtmlFromSelection L sel = .ok htmlStr)
    (habsent : sel.Attr attrToCheck = none) :
    ForceElementAttrParts L sel attrToCheck partsExpected = ([], none) := by
  simp [ForceElementAttrParts, ForceElementAttr, hser, habsent]

/-- C14 at a failing input: `<div id="a">hi</div>` has no attribute `class`. -/
theorem C14_absent_attribute_returns_nil_error_witness :
    NewHtmlFromSelection std div7 = .ok "<div id=\"a\">hi</div>"
      ∧ div7.Attr "class" = none
      ∧ ForceElementAttrParts std div7 "class" 1 = ([], none) :=
  ⟨rfl, rfl,
    C14_absent_attribute_returns_nil_error std div7 "class" "<div id=\"a\">hi</div>" 1 rfl rfl⟩


/-! ### C15 -/

theorem Attr_eq_none_iff (selection : Selection) (name : String) :
    selection.Attr name = none ↔ ¬ hasAttrName selection name := by
  unfold Selection.Attr hasAttrName
  cases hN : selection.Nodes with
  | nil => simp
  | cons h rest =>
    simp only [Option.map_eq_none', List.find?_eq_none, decide_eq_true_eq, List.cons.injEq,
      not_exists, not_and]
    constructor
    · intro hall h1 rest1 heq a ha
      rw [← heq.1] at ha
      exact hall a ha
    · intro hnone a ha
      exact hnone h rest ⟨rfl, rfl⟩ a ha

theorem GetFirstMatchingAttr_first (selection : Selection) (pre post : List String) (n : String)
    (hn : hasAttrName selection n) (hpre : ∀ m ∈ pre, ¬ hasAttrName selection m) :
    GetFirstMatchingAttr selection (pre ++ n :: post) = n := by
  induction pre with
  | nil =>
    have h1 : selection.Attr n ≠ none := fun h => (Attr_eq_none_iff selection n).mp h hn
    cases hA : selection.Attr n with
    | none => exact absurd hA h1
    | some v => simp [GetFirstMatchingAttr, hA]
  | cons m rest ih =>
    have h1 : selection.Attr m = none :=
      (Attr_eq_none_iff selection m).mpr (hpre m (List.mem_cons_self _ _))
    simp only [List.cons_append, GetFirstMatchingAttr, h1]
    exact ih (fun x hx => hpre x (List.mem_cons_of_mem _ hx))

theorem GetFirstMatchingAttr_none (selection : Selection) (attrs : List String)
    (hall : ∀ m ∈ attrs, ¬ hasAttrName selection m) :
    GetFirstMatchingAttr selection attrs = "" := by
  induction attrs with
  | nil => rfl
  | cons m rest ih =>
    have h1 : selection.Attr m = none :=
      (Attr_eq_none_iff selection m).mpr (hall m (List.mem_cons_self _ _))
    simp only [GetFirstMatchingAttr, h1]
    exact ih (fun x hx => hall x (List.mem_cons_of_mem _ hx))

theorem GetFirstMatchingAttr_empty (selection : Selection) (attrs : List String)
    (hempty : ¬ hasAttrName selection "")
    (hres : GetFirstMatchingAttr selection attrs = "") :
    ∀ m ∈ attrs, ¬ hasAttrName selection m := by
  induction attrs with
  | nil =>
    intro m hm
    exact absurd hm (List.not_mem_nil m)
  | cons a rest ih =>
    cases hA : selection.Attr a with
    | some v =>
      simp only [GetFirstMatchingAttr, hA] at hres
      subst hres
      have h1 := (Attr_eq_none_iff selection "").mpr hempty
      rw [hA] at h1
      exact absurd h1 (by simp)
    | none =>
      simp only [GetFirstMatchingAttr, hA] at hres
      intro m hm
      rcases List.mem_cons.mp hm with h | h
      · subst h
        exact (Attr_eq_none_iff selection m).mp hA
      · exact ih hres m h

/-- C15: `GetFirstMatchingAttr` returns the earliest name of the list that is
the name of an attribute of the first node of the selection (every name before
it in the list being absent), and the empty string when no name of the list is
present; the empty string not being itself the name of an attribute of that
node, the result is empty exactly when no name of the list is present. -/
theorem C15_first_matching_attr (selection : Selection) (attrs : List String) :
    (∀ pre n post, attrs = pre ++ n :: post → hasAttrName selection n →
        (∀ m ∈ pre, ¬ hasAttrName selection m) → GetFirstMatchingAttr selection attrs = n)
      ∧ ((∀ m ∈ attrs, ¬ hasAttrName selection m) → GetFirstMatchingAttr selection attrs = "")
      ∧ (¬ hasAttrName selection "" →
          (GetFirstMatchingAttr selection attrs = "" ↔ ∀ m ∈ attrs, ¬ hasAttrName selection m)) :=
  ⟨fun pre n post heq hn hpre => heq ▸ GetFirstMatchingAttr_first selection pre post n hn hpre,
    GetFirstMatchingAttr_none selection attrs,
    fun hempty => ⟨GetFirstMatchingAttr_empty selection attrs hempty,
      GetFirstMatchingAttr_none selection attrs⟩⟩

/-- C15 at work: on `<div id="a" class="x y" title="a&amp;b">hi</div>` with the
names `href`, `class`, `id`, the name `class` is returned: `href` is absent,
`class` is present. -/
theorem C15_first_matching_attr_witness :
    hasAttrName div8 "class" ∧ ¬ hasAttrName div8 "href"
      ∧ GetFirstMatchingAttr div8 ["href", "class", "id"] = "class"
      ∧ GetFirstMatchingAttr div8 ["href", "src"] = "" :=
  ⟨(not_not.mp (fun h => absurd ((Attr_eq_none_iff div8 "class").mpr h) (by decide))),
    (Attr_eq_none_iff div8 "href").mp rfl,
    (C15_first_matching_attr div8 ["href", "class", "id"]).1 ["href"] "class" ["id"] rfl
      (not_not.mp (fun h => absurd ((Attr_eq_none_iff div8 "class").mpr h) (by decide)))
      (fun m hm => by
        rw [List.mem_singleton.mp hm]
        exact (Attr_eq_none_iff div8 "href").mp rfl),
    rfl⟩


/-! ### C16 -/

theorem hasParentLoop_nil (stopAt : Selection) (attrs : List String) :
    hasParentLoop stopAt attrs ⟨[]⟩ = false := by
  rw [hasParentLoop]
  simp [Selection.Length]

theorem hasParentLoop_single (stopAt : Selection) (attrs : List String) (a : Handle) :
    hasParentLoop stopAt attrs (newSingleSelection a) =
      if stopAt.Nodes.any (fun m => m.same a) then false
      else if carriesAttr attrs a then true
      else hasParentLoop stopAt attrs (newSingleSelection a).Parent := by
  rw [hasParentLoop]
  by_cases hs : stopAt.Nodes.any (fun m => m.same a) = true
  · simp [Selection.Length, newSingleSelection, Selection.IsSelection, hs, List.filter_cons]
  · simp only [Bool.not_eq_true] at hs
    simp [Selection.Length, newSingleSelection, Selection.IsSelection, hs, List.filter_cons,
      carriesAttr]

theorem hasParentLoop_chain (stopAt : Selection) (attrs : List String) (n : Node)
    (up : List (Nat × Node)) (doc : Nat) :
    hasParentLoop stopAt attrs (newSingleSelection ⟨n, up, doc⟩).Parent =
      (ancestorsBelow stopAt ⟨n, up, doc⟩).any (carriesAttr attrs) := by
  induction up generalizing n with
  | nil =>
    rw [Parent_single]
    simp [hasParentLoop_nil, ancestorsBelow, Handle.elementAncestors, Handle.ancestors,
      ancestorsFrom]
  | cons ip rest ih =>
    obtain ⟨i, p⟩ := ip
    rw [Parent_single]
    by_cases hp : p.type = NodeType.ElementNode
    · have h1 := hasParentLoop_single stopAt attrs ⟨p, rest, doc⟩
      have ih1 := ih p
      simp only [newSingleSelection] at h1 ih1
      simp only [hp, if_true]
      rw [h1, ih1]
      by_cases hs : stopAt.Nodes.any (fun m => m.same ⟨p, rest, doc⟩) = true
      · simp [ancestorsBelow, Handle.elementAncestors, Handle.ancestors, ancestorsFrom, hp, hs,
          List.takeWhile_cons]
      · simp only [Bool.not_eq_true] at hs
        by_cases hc : carriesAttr attrs ⟨p, rest, doc⟩ = true
        · simp [ancestorsBelow, Handle.elementAncestors, Handle.ancestors, ancestorsFrom, hp, hs,
            hc, List.takeWhile_cons]
        · simp only [Bool.not_eq_true] at hc
          simp [ancestorsBelow, Handle.elementAncestors, Handle.ancestors, ancestorsFrom, hp, hs,
            hc, List.takeWhile_cons]
    · simp [hp, hasParentLoop_nil, ancestorsBelow, Handle.elementAncestors, Handle.ancestors,
        ancestorsFrom, List.takeWhile_cons]


/-- C11 (as stated, refuted): in
`<div><section id="s"><p><b>1</b></p></section><i>2</i></div>`, with the
selection of `b` and `i`, the `div` as `stopAt` and the name `id`, the
`section` is an ancestor of a node of the selection (of `b`) strictly below the
`div` on its chain and carries `id`, yet `HasParentWithAttrs` returns false:
the parents of `b` and `i` are walked together, and the parent of `i` is the
`div`. -/
theorem C11_two_nodes_stop_early :
    HasParentWithAttrs bi10 div10 ["id"] = false
      ∧ ∃ n ∈ bi10.Nodes, ∃ a ∈ ancestorsBelow div10 n,
          ∃ attr ∈ a.node.attr, attr.Key ∈ ["id"] := by
  constructor
  · have h1 : bi10.Parent.Length > 0 := by decide
    have h2 : bi10.Parent.IsSelection div10 = true := by rfl
    rw [HasParentWithAttrs, hasParentLoop]
    simp only [h1, h2, dite_true, if_true]
  · refine ⟨bNode10, ?_, ?_⟩
    · have h : bi10.Nodes = bNode10 :: (bi10.Nodes.drop 1) := rfl
      rw [h]
      exact List.mem_cons_self _ _
    · have hany : (ancestorsBelow div10 bNode10).any (carriesAttr ["id"]) = true := by rfl
      obtain ⟨a, ha, hc⟩ := List.any_eq_true.mp hany
      obtain ⟨attr, hattr, hk⟩ := List.any_eq_true.mp hc
      exact ⟨a, ha, attr, hattr, by simpa using hk⟩

theorem Parent_iterate_nil (k : Nat) : Selection.Parent^[k] ⟨[]⟩ = (⟨[]⟩ : Selection) := by
  induction k with
  | zero => rfl
  | succ n ih => rw [Function.iterate_succ_apply, Parent_nil, ih]

theorem hasParentLoop_levels (stopAt : Selection) (attrs : List String) :
    ∀ (n : Nat) (cur : Selection), cur.height ≤ n →
      (hasParentLoop stopAt attrs cur = true ↔
        ∃ k, (∀ j, j ≤ k → (Selection.Parent^[j] cur).IsSelection stopAt = false)
          ∧ (Selection.Parent^[k] cur).Nodes.any (carriesAttr attrs) = true) := by
  intro n
  induction n with
  | zero =>
    intro cur hcur
    obtain ⟨nodes⟩ := cur
    cases nodes with
    | nil =>
      rw [hasParentLoop_nil]
      simp [Parent_iterate_nil]
    | cons a rest =>
      have := @Selection.le_height ⟨a :: rest⟩ a (List.mem_cons_self _ _)
      omega
  | succ n ih =>
    intro cur hcur
    by_cases hlen : cur.Length > 0
    · have hlt := Selection.Parent_height hlen
      have ih1 := ih cur.Parent (by omega)
      rw [hasParentLoop]
      simp only [hlen, dite_true]
      by_cases hs : cur.IsSelection stopAt = true
      · simp only [hs, if_true, Bool.false_eq_true, false_iff, not_exists, not_and]
        intro k hk
        have h0 := hk 0 (Nat.zero_le _)
        simp only [Function.iterate_zero, id_eq] at h0
        rw [hs] at h0
        exact absurd h0 (by simp)
      · simp only [Bool.not_eq_true] at hs
        by_cases hc : cur.Nodes.any (carriesAttr attrs) = true
        · have hc1 : (cur.Nodes.any fun node => node.node.attr.any fun attr =>
              decide (attr.Key ∈ attrs)) = true := hc
          simp only [hs, Bool.false_eq_true, if_false, hc1, if_true, true_iff]
          refine ⟨0, fun j hj => ?_, hc⟩
          have hj0 : j = 0 := by omega
          subst hj0
          exact hs
        · have hc1 : ¬ ((cur.Nodes.any fun node => node.node.attr.any fun attr =>
              decide (attr.Key ∈ attrs)) = true) := hc
          simp only [hs, Bool.false_eq_true, if_false, hc1]
          rw [ih1]
          constructor
          · rintro ⟨k, hk, hany⟩
            refine ⟨k + 1, fun j hj => ?_, ?_⟩
            · cases j with
              | zero => exact hs
              | succ j1 =>
                rw [Function.iterate_succ_apply]
                exact hk j1 (by omega)
            · rw [Function.iterate_succ_apply]
              exact hany
          · rintro ⟨k, hk, hany⟩
            cases k with
            | zero => exact absurd hany hc
            | succ k1 =>
              refine ⟨k1, fun j hj => ?_, ?_⟩
              · have := hk (j + 1) (by omega)
                rw [Function.iterate_succ_apply] at this
                exact this
              · rw [Function.iterate_succ_apply] at hany
                exact hany
    · have hnil : cur = ⟨[]⟩ := by
        obtain ⟨nodes⟩ := cur
        cases nodes with
        | nil => rfl
        | cons a rest => simp [Selection.Length] at hlen
      subst hnil
      rw [hasParentLoop_nil]
      simp [Parent_iterate_nil]

/-- C11 (amended): `HasParentWithAttrs` walks the parents of the nodes of `sel`
level by level (`sel.Parent()`, its `Parent()`, and so on): it returns true if
and only if some level holds a node that carries an attribute whose name is in
`attrs`, no level up to and including that one holding a node of `stopAt`.  For
a selection of one node this is: if and only if some ancestor of the node
strictly below `stopAt` on its chain of ancestors (any ancestor, when no
ancestor is a node of `stopAt`) carries such an attribute.  The ancestors
strictly below `stopAt` are a beginning of the chain, none of them is a node of
`stopAt`, and the ancestor after them, if any, is one: that ancestor and those
above it are not looked at, so the result is false when the only attributes
that match are on them.  To be a node of `stopAt` is to be the identical node:
a node of another document is none, wherever it lies in its own document. -/
theorem C11_has_parent_with_attrs (stopAt : Selection) (attrs : List String) :
    (∀ sel : Selection,
        HasParentWithAttrs sel stopAt attrs = true ↔
          ∃ k, (∀ j, j ≤ k → (Selection.Parent^[j + 1] sel).IsSelection stopAt = false)
            ∧ ∃ n ∈ (Selection.Parent^[k + 1] sel).Nodes,
                ∃ attr ∈ n.node.attr, attr.Key ∈ attrs)
      ∧ ∀ h : Handle,
          (HasParentWithAttrs (newSingleSelection h) stopAt attrs = true ↔
              ∃ a ∈ ancestorsBelow stopAt h, ∃ attr ∈ a.node.attr, attr.Key ∈ attrs)
            ∧ ((∀ a ∈ ancestorsBelow stopAt h, ∀ attr ∈ a.node.attr, attr.Key ∉ attrs) →
                HasParentWithAttrs (newSingleSelection h) stopAt attrs = false)
            ∧ (∃ above, h.elementAncestors = ancestorsBelow stopAt h ++ above
                ∧ (∀ a ∈ ancestorsBelow stopAt h, ∀ m ∈ stopAt.Nodes, m.same a = false)
                ∧ (∀ s rest, above = s :: rest → ∃ m ∈ stopAt.Nodes, m.same s = true)) := by
  constructor
  · intro sel
    unfold HasParentWithAttrs
    rw [hasParentLoop_levels stopAt attrs sel.Parent.height sel.Parent (le_refl _)]
    simp only [← Function.iterate_succ_apply, List.any_eq_true, carriesAttr, decide_eq_true_eq]
  · intro h
    have hval : HasParentWithAttrs (newSingleSelection h) stopAt attrs =
        (ancestorsBelow stopAt h).any (carriesAttr attrs) := by
      obtain ⟨n, up, doc⟩ := h
      exact hasParentLoop_chain stopAt attrs n up doc
    have hiff : (ancestorsBelow stopAt h).any (carriesAttr attrs) = true ↔
        ∃ a ∈ ancestorsBelow stopAt h, ∃ attr ∈ a.node.attr, attr.Key ∈ attrs := by
      simp [carriesAttr]
    refine ⟨by rw [hval, hiff], fun hno => ?_, ?_⟩
    · rw [hval]
      cases hb : (ancestorsBelow stopAt h).any (carriesAttr attrs) with
      | false => rfl
      | true =>
        obtain ⟨a, ha, attr, hattr, hk⟩ := hiff.mp hb
        exact absurd hk (hno a ha attr hattr)
    · refine ⟨h.elementAncestors.dropWhile
          (fun a => !(stopAt.Nodes.any (fun m => m.same a))), ?_, ?_, ?_⟩
      · exact (List.takeWhile_append_dropWhile _ _).symm
      · intro a ha m hm
        have h1 := List.mem_takeWhile_imp ha
        simp only [Bool.not_eq_true', List.any_eq_false, Bool.not_eq_true] at h1
        exact h1 m hm
      · intro s rest hs
        have h1 : (h.elementAncestors.dropWhile
            (fun a => !(stopAt.Nodes.any (fun m => m.same a)))).head? = some s := by
          rw [hs]
          rfl
        have h2 := List.head?_dropWhile_not
          (fun a => !(stopAt.Nodes.any (fun m => m.same a))) h.elementAncestors
        rw [h1] at h2
        simpa using h2

/-- C11 at work in `<div><section id="s"><p><b>1</b></p></section><i>2</i></div>`
on the selection of `b` alone and the name `id`: with the `div` as `stopAt` the
`section` is below it and the result is true; with the `section` itself as
`stopAt` only `p` is looked at and the result is false; with, as `stopAt`, the
node of another document that lies where the `section` lies in this one (the
first `span` of `<div><span>y</span><section><p><span>x</span></p></section></div>`)
nothing stops the walk and the result is true. -/
theorem C11_has_parent_with_attrs_witness :
    HasParentWithAttrs b10 div10 ["id"] = true
      ∧ HasParentWithAttrs b10 section10 ["id"] = false
      ∧ section10.Nodes.map Handle.pos = spanY6.Nodes.map Handle.pos
      ∧ HasParentWithAttrs b10 spanY6 ["id"] = true := by
  have hb : b10 = newSingleSelection bNode10 := rfl
  refine ⟨?_, ?_, rfl, ?_⟩
  · rw [hb, ((C11_has_parent_with_attrs div10 ["id"]).2 bNode10).1]
    have hany : (ancestorsBelow div10 bNode10).any (carriesAttr ["id"]) = true := by rfl
    obtain ⟨a, ha, hc⟩ := List.any_eq_true.mp hany
    obtain ⟨attr, hattr, hk⟩ := List.any_eq_true.mp hc
    exact ⟨a, ha, attr, hattr, by simpa using hk⟩
  · rw [hb]
    refine ((C11_has_parent_with_attrs section10 ["id"]).2 bNode10).2.1 ?_
    have hany : (ancestorsBelow section10 bNode10).any (carriesAttr ["id"]) = false := by rfl
    intro a ha attr hattr hk
    have h1 := List.any_eq_false.mp hany a ha
    simp only [carriesAttr, Bool.not_eq_true, List.any_eq_false, decide_eq_true_eq] at h1
    exact h1 attr hattr hk
  · rw [hb, ((C11_has_parent_with_attrs spanY6 ["id"]).2 bNode10).1]
    have hany : (ancestorsBelow spanY6 bNode10).any (carriesAttr ["id"]) = true := by rfl
    obtain ⟨a, ha, hc⟩ := List.any_eq_true.mp hany
    obtain ⟨attr, hattr, hk⟩ := List.any_eq_true.mp hc
    exact ⟨a, ha, attr, hattr, by simpa using hk⟩

/-! ### C18 and C19 -/

mutual
theorem mem_matchAll (m : Handle → Bool) (doc : Nat) :
    ∀ (n : Node) (up : List (Nat × Node)) (x : Handle), x ∈ matchAll m doc n up →
      x.doc = doc ∧ (x = ⟨n, up, doc⟩ ∨ ∃ ext i, x.up = ext ++ (i, n) :: up)
  | .mk t d a cs, up, x, hx => by
    unfold matchAll at hx
    rcases List.mem_append.mp hx with h | h
    · split at h
      · rw [List.mem_singleton.mp h]
        exact ⟨rfl, Or.inl rfl⟩
      · exact absurd h (List.not_mem_nil x)
    · have h1 := mem_matchAllFrom m doc (.mk t d a cs) up 0 cs x h
      exact ⟨h1.1, Or.inr h1.2⟩
theorem mem_matchAllFrom (m : Handle → Bool) (doc : Nat) (parent : Node)
    (up : List (Nat × Node)) :
    ∀ (i : Nat) (cs : List Node) (x : Handle), x ∈ matchAllFrom m doc parent up i cs →
      x.doc = doc ∧ ∃ ext j, x.up = ext ++ (j, parent) :: up
  | _, [], x, hx => by
    unfold matchAllFrom at hx
    exact absurd hx (List.not_mem_nil x)
  | i, c :: cs, x, hx => by
    unfold matchAllFrom at hx
    rcases List.mem_append.mp hx with h | h
    · rcases mem_matchAll m doc c ((i, parent) :: up) x h with ⟨h0, h1 | ⟨ext, j, h1⟩⟩
      · exact ⟨h0, [], i, by rw [h1]; rfl⟩
      · exact ⟨h0, ext ++ [(j, c)], i, by rw [h1]; simp⟩
    · exact mem_matchAllFrom m doc parent up (i + 1) cs x h
end

theorem mem_childHandles {h c : Handle} (hc : c ∈ h.childHandles) :
    c.doc = h.doc ∧ ∃ i, c.up = (i, h.node) :: h.up := by
  unfold Handle.childHandles at hc
  obtain ⟨ic, _, hic⟩ := List.mem_map.mp hc
  exact ⟨by rw [← hic], ic.1, by rw [← hic]⟩

theorem mem_Find_single (L : Lib) (r : Handle) (selector : String) (x : Handle)
    (hx : x ∈ ((newSingleSelection r).Find L selector).Nodes) :
    x.doc = r.doc ∧ ∃ ext i, x.up = ext ++ (i, r.node) :: r.up := by
  have hx1 : x ∈ mapNodes [r] (fun _ n =>
      (n.childHandles.filter (fun c => c.node.type = NodeType.ElementNode)).flatMap
        (fun c => matchAll (L.Match selector) c.doc c.node c.up)) := hx
  obtain ⟨_, n, hn, hxn⟩ := mem_mapNodes hx1
  rw [List.mem_singleton.mp hn] at hxn
  obtain ⟨c, hc, hxc⟩ := List.mem_flatMap.mp hxn
  obtain ⟨hcd, i, hi⟩ := mem_childHandles (List.mem_filter.mp hc).1
  rcases mem_matchAll (L.Match selector) c.doc c.node c.up x hxc with ⟨h0, h1 | ⟨ext, j, h1⟩⟩
  · exact ⟨h0.trans hcd, [], i, by rw [h1]; exact hi⟩
  · exact ⟨h0.trans hcd, ext ++ [(j, c.node)], i, by rw [h1, hi]; simp⟩

theorem ancestorsFrom_append (doc : Nat) (ext base : List (Nat × Node)) :
    ancestorsFrom doc (ext ++ base) = betweenHandles doc ext base ++ ancestorsFrom doc base := by
  induction ext with
  | nil => rfl
  | cons ip rest ih =>
    obtain ⟨i, p⟩ := ip
    show ancestorsFrom doc ((i, p) :: (rest ++ base)) = _
    simp only [ancestorsFrom, betweenHandles, ih, List.cons_append]

theorem betweenHandles_length (doc : Nat) (ext base : List (Nat × Node)) :
    (betweenHandles doc ext base).length = ext.length := by
  induction ext with
  | nil => rfl
  | cons ip rest ih =>
    obtain ⟨i, p⟩ := ip
    simp [betweenHandles, ih]


theorem depthCond_stop (L : Lib) (childHtml rootHtml : String) (a : Handle) (v : DepthVars)
    (ha : NewHtmlFromSelection L (newSingleSelection a) = .ok rootHtml) :
    depthCond L childHtml rootHtml (newSingleSelection a) v = .ret (true, v) := by
  simp [depthCond, Selection.Length, newSingleSelection, Outcome.bind] at ha ⊢
  simp [ha]

theorem depthCond_step (L : Lib) (childHtml rootHtml h : String) (a : Handle) (v : DepthVars)
    (ha : NewHtmlFromSelection L (newSingleSelection a) = .ok h) (hne : h ≠ rootHtml) :
    depthCond L childHtml rootHtml (newSingleSelection a) v
      = .ret (false, ⟨v.depth + 1, v.potErr⟩) := by
  simp [depthCond, Selection.Length, newSingleSelection, Outcome.bind] at ha ⊢
  simp [ha, hne]

theorem ClimbTreeUntil_to_root (L : Lib) (childHtml rootHtml : String) (rnode : Node)
    (rup : List (Nat × Node)) (doc : Nat) (i : Nat)
    (hroot : rnode.type = NodeType.ElementNode)
    (hrootS : NewHtmlFromSelection L (newSingleSelection ⟨rnode, rup, doc⟩) = .ok rootHtml) :
    ∀ (ext : List (Nat × Node)) (n : Node) (fuel : Nat) (v : DepthVars),
      (∀ a ∈ betweenHandles doc ext ((i, rnode) :: rup),
        a.node.type = NodeType.ElementNode
          ∧ ∃ h, NewHtmlFromSelection L (newSingleSelection a) = .ok h ∧ h ≠ rootHtml) →
      ext.length < fuel →
      ClimbTreeUntil (depthCond L childHtml rootHtml) fuel
          (newSingleSelection ⟨n, ext ++ (i, rnode) :: rup, doc⟩) v
        = .ret (none, ⟨v.depth + ext.length, v.potErr⟩) := by
  intro ext
  induction ext with
  | nil =>
    intro n fuel v _ hfuel
    obtain ⟨f, rfl⟩ : ∃ f, fuel = f + 1 := ⟨fuel - 1, by simp at hfuel; omega⟩
    unfold ClimbTreeUntil
    rw [Parent_single]
    simp only [List.nil_append, hroot, if_true]
    have hstop := depthCond_stop L childHtml rootHtml ⟨rnode, rup, doc⟩ v hrootS
    simp only [newSingleSelection] at hstop
    simp [hstop]
  | cons jp rest ih =>
    intro n fuel v hbetween hfuel
    obtain ⟨j, p⟩ := jp
    obtain ⟨f, rfl⟩ : ∃ f, fuel = f + 1 := ⟨fuel - 1, by simp at hfuel; omega⟩
    obtain ⟨hp, h, hser, hne⟩ := hbetween ⟨p, rest ++ (i, rnode) :: rup, doc⟩
      (by simp [betweenHandles])
    unfold ClimbTreeUntil
    rw [Parent_single]
    simp only [List.cons_append, hp, if_true]
    have hstep := depthCond_step L childHtml rootHtml h ⟨p, rest ++ (i, rnode) :: rup, doc⟩ v
      hser hne
    simp only [newSingleSelection] at hstep ih
    simp only [hstep]
    rw [ih p f ⟨v.depth + 1, v.potErr⟩
      (fun a ha => hbetween a (by simp [betweenHandles, ha]))
      (by simp at hfuel; omega)]
    simp only [List.length_cons, Nat.cast_add, Nat.cast_one]
    congr 3
    ring

theorem depthEach_pass (L : Lib) (fuel : Nat) (childHtml rootHtml h : String) (i : Nat)
    (x : Handle) (v : DepthVars)
    (hx : NewHtmlFromSelection L (newSingleSelection x) = .ok h) (hne : h ≠ childHtml) :
    depthEach L fuel childHtml rootHtml i (newSingleSelection x) v = .ret v := by
  simp [depthEach, hx, hne]

theorem depthEach_match (L : Lib) (fuel : Nat) (childHtml rootHtml : String) (j : Nat)
    (r d : Handle) (ext : List (Nat × Node)) (i : Nat) (v : DepthVars)
    (hroot : r.node.type = NodeType.ElementNode)
    (hrootS : NewHtmlFromSelection L (newSingleSelection r) = .ok rootHtml)
    (hd : NewHtmlFromSelection L (newSingleSelection d) = .ok childHtml)
    (hdoc : d.doc = r.doc)
    (hup : d.up = ext ++ (i, r.node) :: r.up)
    (hbetween : ∀ a ∈ betweenHandles r.doc ext ((i, r.node) :: r.up),
      a.node.type = NodeType.ElementNode
        ∧ ∃ h, NewHtmlFromSelection L (newSingleSelection a) = .ok h ∧ h ≠ rootHtml)
    (hfuel : ext.length < fuel) :
    depthEach L fuel childHtml rootHtml j (newSingleSelection d) v
      = .ret ⟨v.depth + ext.length, v.potErr⟩ := by
  obtain ⟨dn, dup, ddoc⟩ := d
  obtain ⟨rn, rup, rdoc⟩ := r
  simp only at hup hroot hdoc
  subst hup
  subst hdoc
  simp only [depthEach, hd, if_true]
  rw [ClimbTreeUntil_to_root L childHtml rootHtml rn rup ddoc i hroot hrootS ext dn fuel v
    hbetween hfuel]
  rfl

theorem eachFrom_cons {σ : Type} (f : Nat → Selection → σ → Outcome σ) (x : Handle)
    (rest : List Handle) (i : Nat) (st : σ) :
    eachFrom f i (x :: rest) st =
      (f i (newSingleSelection x) st).bind (fun st1 => eachFrom f (i + 1) rest st1) := rfl

theorem eachFrom_append {σ : Type} (f : Nat → Selection → σ → Outcome σ) (xs ys : List Handle)
    (i : Nat) (st : σ) :
    eachFrom f i (xs ++ ys) st =
      (eachFrom f i xs st).bind (fun st1 => eachFrom f (i + xs.length) ys st1) := by
  induction xs generalizing i st with
  | nil => rfl
  | cons x rest ih =>
    rw [List.cons_append, eachFrom_cons, eachFrom_cons]
    have hlen : i + (x :: rest).length = i + 1 + rest.length := by
      simp only [List.length_cons]
      omega
    rw [hlen]
    cases hf : f i (newSingleSelection x) st with
    | panicked m => rfl
    | outOfFuel => rfl
    | ret st1 => exact ih (i + 1) st1


theorem CalculateNodeDepth_unique (L : Lib) (r : Handle) (child : Selection)
    (childHtml rootHtml : String) (pre post : List Handle) (d : Handle)
    (ext : List (Nat × Node)) (i : Nat) (fuel : Nat)
    (hroot : r.node.type = NodeType.ElementNode)
    (hchild : NewHtmlFromSelection L child = .ok childHtml)
    (hrootS : NewHtmlFromSelection L (newSingleSelection r) = .ok rootHtml)
    (hfind : ((newSingleSelection r).Find L (NodeName child)).Nodes = pre ++ d :: post)
    (hothers : ∀ x ∈ pre ++ post,
      ∃ h, NewHtmlFromSelection L (newSingleSelection x) = .ok h ∧ h ≠ childHtml)
    (hd : NewHtmlFromSelection L (newSingleSelection d) = .ok childHtml)
    (hdoc : d.doc = r.doc)
    (hup : d.up = ext ++ (i, r.node) :: r.up)
    (hbetween : ∀ a ∈ betweenHandles r.doc ext ((i, r.node) :: r.up),
      a.node.type = NodeType.ElementNode
        ∧ ∃ h, NewHtmlFromSelection L (newSingleSelection a) = .ok h ∧ h ≠ rootHtml)
    (hfuel : ext.length < fuel) :
    CalculateNodeDepth L fuel (newSingleSelection r) child = .ret ((ext.length : Int), none) := by
  unfold CalculateNodeDepth
  simp only [hchild, hrootS, Selection.Each, hfind]
  rw [eachFrom_append, eachFrom_unchanged, Outcome.bind, eachFrom_cons,
    depthEach_match L fuel childHtml rootHtml _ r d ext i _ hroot hrootS hd hdoc hup hbetween
      hfuel,
    Outcome.bind, eachFrom_unchanged]
  · simp [Outcome.bind]
  · intro x hx j
    obtain ⟨h, hh, hne⟩ := hothers x (List.mem_append_right _ hx)
    exact depthEach_pass L fuel childHtml rootHtml h j x _ hh hne
  · intro x hx j
    obtain ⟨h, hh, hne⟩ := hothers x (List.mem_append_left _ hx)
    exact depthEach_pass L fuel childHtml rootHtml h j x _ hh hne


/-- C18 (as stated, refuted).  First, with the document node of
`<!DOCTYPE html><html><head></head><body><p>x</p></body></html>` as root (one
node) and its `p` as child, one descendant of root with the name `p` serializes
equal to child, and no depth comes back for any fuel: the climb from `p`
passes `body` and `html` and then reaches the empty parent, the document node
not being an element, where the call panics.  Second, in
`<div><svg><linearGradient></linearGradient></svg></div>` with the `div` as
root (one node, an element) and the `linearGradient` as child, the selector
engine compiling a type selector in lower case as cascadia does: the child is
the one descendant of root with its tag name, the `svg` lies between it and
root, and `CalculateNodeDepth` returns 0, not 1: the query for `linearGradient`
yields no node. -/
theorem C18_document_root_and_unqueried_tag :
    (root11.Length = 1
        ∧ (root11.Find std (NodeName p11)).Length = 1
        ∧ NewHtmlFromSelection std (root11.Find std (NodeName p11))
            = NewHtmlFromSelection std p11
        ∧ ¬ ∃ (fuel : Nat) (n : Int), CalculateNodeDepth std fuel root11 p11 = .ret (n, none))
      ∧ (div13.Nodes = [divNode13]
        ∧ divNode13.node.type = NodeType.ElementNode
        ∧ lg13.Nodes = [lgNode13]
        ∧ divNode13.descendantsNamed (NodeName lg13) = [lgNode13]
        ∧ NewHtmlFromSelection casc lg13 = .ok "<linearGradient></linearGradient>"
        ∧ lgNode13.ancestors = [svgNode13] ++ divNode13 :: divNode13.ancestors
        ∧ (div13.Find casc (NodeName lg13)).Nodes = []
        ∧ ∀ fuel : Nat, CalculateNodeDepth casc fuel div13 lg13 = .ret (0, none)) := by
  refine ⟨⟨rfl, rfl, rfl, ?_⟩, rfl, rfl, rfl, rfl, rfl, rfl, rfl, fun _ => rfl⟩
  rintro ⟨fuel, n, h⟩
  match fuel, h with
  | 0, h => exact absurd h (by simp [show CalculateNodeDepth std 0 root11 p11 = .outOfFuel from rfl])
  | 1, h => exact absurd h (by simp [show CalculateNodeDepth std 1 root11 p11 = .outOfFuel from rfl])
  | 2, h => exact absurd h (by simp [show CalculateNodeDepth std 2 root11 p11 = .outOfFuel from rfl])
  | f + 3, h =>
    have h1 : CalculateNodeDepth std (f + 3) root11 p11
        = .panicked "slice bounds out of range" := rfl
    rw [h1] at h
    exact absurd h (by simp)

/-- C18 (amended): for a root of one node that is an element and a child such
that exactly one node `d` of the result of the query `root.Find(NodeName(child))`
serializes equal to child (the serializations of child, of root and of the
nodes of the result succeeding, and the nodes between `d` and root being
elements that serialize, without error, to something else than root), root is
on the chain of ancestors of `d`, and `CalculateNodeDepth` returns with a nil
error, given fuel for the climb, the number of nodes strictly between `d` and
root on that chain: 0 when `d` is a child of root, `k - 1` when root is the
`k`-th ancestor of `d`. -/
theorem C18_depth_of_unique_match (L : Lib) (r : Handle) (child : Selection)
    (childHtml rootHtml : String) (pre post : List Handle) (d : Handle)
    (hroot : r.node.type = NodeType.ElementNode)
    (hchild : NewHtmlFromSelection L child = .ok childHtml)
    (hrootS : NewHtmlFromSelection L (newSingleSelection r) = .ok rootHtml)
    (hfind : ((newSingleSelection r).Find L (NodeName child)).Nodes = pre ++ d :: post)
    (hothers : ∀ x ∈ pre ++ post,
      ∃ h, NewHtmlFromSelection L (newSingleSelection x) = .ok h ∧ h ≠ childHtml)
    (hd : NewHtmlFromSelection L (newSingleSelection d) = .ok childHtml)
    (hbetween : ∀ between, d.ancestors = between ++ r :: r.ancestors →
      ∀ a ∈ between,
        a.node.type = NodeType.ElementNode
          ∧ ∃ h, NewHtmlFromSelection L (newSingleSelection a) = .ok h ∧ h ≠ rootHtml) :
    ∃ between : List Handle,
      d.ancestors = between ++ r :: r.ancestors
        ∧ ∀ fuel, between.length < fuel →
            CalculateNodeDepth L fuel (newSingleSelection r) child
              = .ret ((between.length : Int), none) := by
  obtain ⟨hdoc, ext, i, hup⟩ := mem_Find_single L r (NodeName child) d (by rw [hfind]; simp)
  have hanc : d.ancestors
      = betweenHandles r.doc ext ((i, r.node) :: r.up) ++ r :: r.ancestors := by
    obtain ⟨rn, rup, rdoc⟩ := r
    simp only at hdoc
    simp only [Handle.ancestors, hup, hdoc, ancestorsFrom_append, ancestorsFrom]
  refine ⟨betweenHandles r.doc ext ((i, r.node) :: r.up), hanc, fun fuel hfuel => ?_⟩
  rw [betweenHandles_length] at hfuel ⊢
  exact CalculateNodeDepth_unique L r child childHtml rootHtml pre post d ext i fuel hroot
    hchild hrootS hfind hothers hd hdoc hup (hbetween _ hanc) hfuel

/-- C18 at work on `<div><p><span>x</span></p></div>` with the `div` as root
and the `span` as child: `p` is the one node between them, and the depth is 1. -/
theorem C18_depth_of_unique_match_witness :
    spanNode1.ancestors = [pNode1] ++ divNode1 :: divNode1.ancestors
      ∧ ∃ between : List Handle,
          spanNode1.ancestors = between ++ divNode1 :: divNode1.ancestors
            ∧ ∀ fuel, between.length < fuel →
                CalculateNodeDepth std fuel (newSingleSelection divNode1) span1
                  = .ret ((between.length : Int), none) :=
  ⟨rfl,
    C18_depth_of_unique_match std divNode1 span1 "<span>x</span>"
      "<div><p><span>x</span></p></div>" [] [] spanNode1 rfl rfl rfl rfl
      (fun x hx => absurd hx (List.not_mem_nil x)) rfl
      (fun between hb a ha => by
        have h1 : spanNode1.ancestors = [pNode1] ++ divNode1 :: divNode1.ancestors := rfl
        rw [h1] at hb
        have h2 : between = [pNode1] := (List.append_cancel_right hb).symm
        rw [h2] at ha
        rw [List.mem_singleton.mp ha]
        exact ⟨rfl, "<p><span>x</span></p>", rfl, by decide⟩)⟩


theorem between_of_Find (L : Lib) (r : Handle) (selector : String) (d : Handle)
    (hd : d ∈ ((newSingleSelection r).Find L selector).Nodes) :
    d.doc = r.doc ∧ ∃ ext i, d.up = ext ++ (i, r.node) :: r.up
      ∧ d.ancestors = betweenHandles r.doc ext ((i, r.node) :: r.up) ++ r :: r.ancestors := by
  obtain ⟨hdoc, ext, i, hup⟩ := mem_Find_single L r selector d hd
  refine ⟨hdoc, ext, i, hup, ?_⟩
  obtain ⟨rn, rup, rdoc⟩ := r
  simp only at hdoc
  simp only [Handle.ancestors, hup, hdoc, ancestorsFrom_append, ancestorsFrom]

theorem eachFrom_depth_sum (L : Lib) (r : Handle) (child : Selection)
    (childHtml rootHtml : String) (fuel0 : Nat)
    (hroot : r.node.type = NodeType.ElementNode)
    (hrootS : NewHtmlFromSelection L (newSingleSelection r) = .ok rootHtml)
    (cs : List Handle)
    (hcs : ∀ d ∈ cs, d ∈ ((newSingleSelection r).Find L (NodeName child)).Nodes)
    (hfuel0 : ∀ d ∈ cs, d.up.length ≤ fuel0)
    (hser : ∀ x ∈ cs, ∃ h, NewHtmlFromSelection L (newSingleSelection x) = .ok h)
    (hbetween : ∀ d ∈ cs, ∀ between, d.ancestors = between ++ r :: r.ancestors →
      ∀ a ∈ between,
        a.node.type = NodeType.ElementNode
          ∧ ∃ h, NewHtmlFromSelection L (newSingleSelection a) = .ok h ∧ h ≠ rootHtml) :
    ∃ k : Nat, ∀ fuel, fuel0 ≤ fuel → ∀ (i : Nat) (v : DepthVars),
      eachFrom (depthEach L fuel childHtml rootHtml) i cs v
        = .ret ⟨v.depth + k, v.potErr⟩ := by
  induction cs with
  | nil => exact ⟨0, fun _ _ _ v => by simp [eachFrom]⟩
  | cons d rest ih =>
    obtain ⟨k1, hk1⟩ := ih (fun x hx => hcs x (List.mem_cons_of_mem _ hx))
      (fun x hx => hfuel0 x (List.mem_cons_of_mem _ hx))
      (fun x hx => hser x (List.mem_cons_of_mem _ hx))
      (fun x hx => hbetween x (List.mem_cons_of_mem _ hx))
    obtain ⟨h, hh⟩ := hser d (List.mem_cons_self _ _)
    by_cases hm : h = childHtml
    · subst hm
      obtain ⟨hdoc, ext, j, hup, hanc⟩ := between_of_Find L r (NodeName child) d
        (hcs d (List.mem_cons_self _ _))
      have hb := hbetween d (List.mem_cons_self _ _) _ hanc
      have hlen : ext.length < fuel0 := by
        have h1 := hfuel0 d (List.mem_cons_self _ _)
        rw [hup] at h1
        simp only [List.length_append, List.length_cons] at h1
        omega
      refine ⟨ext.length + k1, fun fuel hfuel i v => ?_⟩
      rw [eachFrom_cons,
        depthEach_match L fuel h rootHtml i r d ext j v hroot hrootS hh hdoc hup hb
          (lt_of_lt_of_le hlen hfuel),
        Outcome.bind, hk1 fuel hfuel]
      simp only [Nat.cast_add]
      congr 2
      ring
    · refine ⟨k1, fun fuel hfuel i v => ?_⟩
      rw [eachFrom_cons, depthEach_pass L fuel childHtml rootHtml h i d v hh hm, Outcome.bind,
        hk1 fuel hfuel]

/-- C19 (as stated, refuted): with the document node of
`<!DOCTYPE html><html><head></head><body><p>1...1</p></body></html>` (a text
of thirty characters) as root and its `p` as child, everything serializes, `p`,
`body`, `html` and the document each to a markup of its own, and the climb from
`p` does not end at root: after `body` and `html` it reaches the empty parent,
the document node not being an element, and goes on from there without end.
No depth comes back for any fuel. -/
theorem C19_document_root_climb_does_not_end :
    root12.Length = 1
      ∧ NewHtmlFromSelection std p12 = .ok "<p>111111111111111111111111111111</p>"
      ∧ NewHtmlFromSelection std p12.Parent
          = .ok "<body><p>111111111111111111111111111111</p></body>"
      ∧ NewHtmlFromSelection std p12.Parent.Parent
          = .ok "<html><head></head><body><p>111111111111111111111111111111</p></body></html>"
      ∧ NewHtmlFromSelection std root12 = .ok
          "<!DOCTYPE html><html><head></head><body><p>111111111111111111111111111111</p></body></html>"
      ∧ p12.Parent.Parent.Parent.Length = 0
      ∧ ∀ fuel : Nat, CalculateNodeDepth std fuel root12 p12 = .outOfFuel := by
  refine ⟨rfl, rfl, rfl, rfl, rfl, rfl, fun fuel => ?_⟩
  match fuel with
  | 0 => rfl
  | 1 => rfl
  | 2 => rfl
  | f + 3 =>
    have h1 : ∃ v, CalculateNodeDepth std (f + 3) root12 p12 =
        (((ClimbTreeUntil
            (depthCond std "<p>111111111111111111111111111111</p>"
              "<!DOCTYPE html><html><head></head><body><p>111111111111111111111111111111</p></body></html>")
            f ⟨[]⟩ v).bind
            (fun r => Outcome.ret r.2)).bind (fun st1 => Outcome.ret st1)).bind
          (fun v =>
            match v.potErr with
            | some err => Outcome.ret (-1, some err)
            | none => Outcome.ret (v.depth, none)) := ⟨_, rfl⟩
    obtain ⟨v, hv⟩ := h1
    rw [hv, ClimbTreeUntil_empty_diverges std _ _ (by decide) (by decide) (by decide)]
    rfl


/-- C19 (amended): for a root of one node that is an element, and every child
(the serializations succeeding, and the nodes between a located node and root
being elements that serialize to something else than root): every node the
query of root for the tag name of child locates has root on its chain of
ancestors; the climb from it, given fuel for as many steps as there are nodes
up to root, ends at root with the depth raised by the number of nodes in
between and the error variable as it was (the empty parent is not reached);
and with enough fuel `CalculateNodeDepth` returns a depth that is at least 0
with a nil error. -/
theorem C19_climb_ends_at_root (L : Lib) (r : Handle) (child : Selection)
    (childHtml rootHtml : String)
    (hroot : r.node.type = NodeType.ElementNode)
    (hchild : NewHtmlFromSelection L child = .ok childHtml)
    (hrootS : NewHtmlFromSelection L (newSingleSelection r) = .ok rootHtml)
    (hser : ∀ x ∈ ((newSingleSelection r).Find L (NodeName child)).Nodes,
      ∃ h, NewHtmlFromSelection L (newSingleSelection x) = .ok h)
    (hbetween : ∀ d ∈ ((newSingleSelection r).Find L (NodeName child)).Nodes,
      ∀ between, d.ancestors = between ++ r :: r.ancestors →
        ∀ a ∈ between,
          a.node.type = NodeType.ElementNode
            ∧ ∃ h, NewHtmlFromSelection L (newSingleSelection a) = .ok h ∧ h ≠ rootHtml) :
    (∀ d ∈ ((newSingleSelection r).Find L (NodeName child)).Nodes,
        ∃ between, d.ancestors = between ++ r :: r.ancestors
          ∧ ∀ (fuel : Nat) (v : DepthVars), between.length < fuel →
              ClimbTreeUntil (depthCond L childHtml rootHtml) fuel (newSingleSelection d) v
                = .ret (none, ⟨v.depth + between.length, v.potErr⟩))
      ∧ ∃ (n fuel0 : Nat), ∀ fuel, fuel0 ≤ fuel →
          CalculateNodeDepth L fuel (newSingleSelection r) child = .ret ((n : Int), none) := by
  constructor
  · intro d hd
    obtain ⟨hdoc, ext, i, hup, hanc⟩ := between_of_Find L r (NodeName child) d hd
    refine ⟨_, hanc, fun fuel v hfuel => ?_⟩
    rw [betweenHandles_length] at hfuel ⊢
    have hb := hbetween d hd _ hanc
    obtain ⟨dn, dup, ddoc⟩ := d
    obtain ⟨rn, rup, rdoc⟩ := r
    simp only at hup hroot hdoc
    subst hup
    subst hdoc
    exact ClimbTreeUntil_to_root L childHtml rootHtml rn rup ddoc i hroot hrootS ext dn fuel v hb
      hfuel
  · obtain ⟨k, hk⟩ := eachFrom_depth_sum L r child childHtml rootHtml
      ((newSingleSelection r).Find L (NodeName child)).height hroot hrootS
      ((newSingleSelection r).Find L (NodeName child)).Nodes (fun d hd => hd)
      (fun d hd => by
        have := Selection.le_height hd
        omega)
      hser hbetween
    refine ⟨k, ((newSingleSelection r).Find L (NodeName child)).height, fun fuel hfuel => ?_⟩
    unfold CalculateNodeDepth
    simp only [hchild, hrootS, Selection.Each]
    rw [hk fuel hfuel]
    simp [Outcome.bind]

/-- C19 at work on `<div><span>y</span><section><p><span>x</span></p></section></div>`
with the `div` as root and the `span` inside `p` as child: the query locates
the two `span`s, the first a child of root, the second with `p` and `section`
between it and root, and the depth returned is 2. -/
theorem C19_climb_ends_at_root_witness :
    ((newSingleSelection divNode6).Find std (NodeName spanX6)).Nodes = [spanNodeY6, spanNodeX6]
      ∧ spanNodeY6.ancestors = [] ++ divNode6 :: divNode6.ancestors
      ∧ spanNodeX6.ancestors = [pNode6, sectionNode6] ++ divNode6 :: divNode6.ancestors
      ∧ CalculateNodeDepth std 3 (newSingleSelection divNode6) spanX6 = .ret (2, none)
      ∧ ∃ (n fuel0 : Nat), ∀ fuel, fuel0 ≤ fuel →
          CalculateNodeDepth std fuel (newSingleSelection divNode6) spanX6
            = .ret ((n : Int), none) := by
  refine ⟨rfl, rfl, rfl, rfl, ?_⟩
  have hcands : ((newSingleSelection divNode6).Find std (NodeName spanX6)).Nodes
      = [spanNodeY6, spanNodeX6] := rfl
  refine (C19_climb_ends_at_root std divNode6 spanX6 "<span>x</span>"
    "<div><span>y</span><section><p><span>x</span></p></section></div>" rfl rfl rfl ?_ ?_).2
  · intro x hx
    rw [hcands] at hx
    simp only [List.mem_cons, List.mem_singleton, List.not_mem_nil, or_false] at hx
    rcases hx with h | h
    · exact ⟨"<span>y</span>", h ▸ rfl⟩
    · exact ⟨"<span>x</span>", h ▸ rfl⟩
  · intro d hd between hb a ha
    rw [hcands] at hd
    simp only [List.mem_cons, List.mem_singleton, List.not_mem_nil, or_false] at hd
    rcases hd with h | h
    · subst h
      have h1 : spanNodeY6.ancestors = [] ++ divNode6 :: divNode6.ancestors := rfl
      rw [h1] at hb
      rw [← List.append_cancel_right hb] at ha
      exact absurd ha (List.not_mem_nil a)
    · subst h
      have h1 : spanNodeX6.ancestors = [pNode6, sectionNode6] ++ divNode6 :: divNode6.ancestors :=
        rfl
      rw [h1] at hb
      rw [← List.append_cancel_right hb] at ha
      simp only [List.mem_cons, List.mem_singleton, List.not_mem_nil, or_false] at ha
      rcases ha with h2 | h2
      · subst h2
        exact ⟨rfl, "<p><span>x</span></p>", rfl, by decide⟩
      · subst h2
        exact ⟨rfl, "<section><p><span>x</span></p></section>", rfl, by decide⟩

end Gqpp
